import Mathlib

/-!
Verification of the domain / IPv4 validators of `stereotype-police-rs`
(`src/domain/mod.rs`, `src/ipv4/mod.rs`, `src/lib.rs`).

Modelling conventions.

* Input strings are modelled as `List Char` (Unicode scalar values, exactly the
  unit the `regex` crate's character classes and `{1,63}` repetitions count).
  Offsets stored in descriptors are modelled in characters; the Rust code
  stores UTF-8 byte offsets, but every comparison the code performs on them
  (equality with `full_domain_len`, the orderings, and the slicings) is
  invariant under the strictly monotone char-position/byte-position
  correspondence, so the two representations have the same observable
  behaviour.  The only byte-sensitive checks in the source, `m.end() > 255`,
  are modelled explicitly on UTF-8 byte counts via `utf8Len`.
* Rust panics (the `unreachable!()` arms, and any slicing or `usize`
  subtraction that would panic) are modelled by an `Option` layer: `none`
  means the Rust code would panic, `some r` means it returns `r`.
* `\d` in the regexes is modelled as ASCII `0-9`.  The crate's regexes use
  Unicode `\d`; since every captured digit string is immediately fed to
  `str::parse::<u16>` (which accepts ASCII only), the deviation can only turn
  an `IncorrectPort` outcome into `IncorrectFormat` for inputs carrying
  non-ASCII decimal digits, which no claim distinguishes.
* `str::to_lowercase` is modelled as ASCII lowercasing (`Char.toLower`),
  adequate for comparison with the ASCII literal `"localhost"` up to exotic
  Unicode case-foldings no claim depends on.
-/

namespace StereotypePolice

/-- UTF-8 byte length of a character sequence (for the source's
`m.end() > 255` byte-offset checks). -/
def utf8Len (s : List Char) : Nat :=
  (s.map Char.utf8Size).sum

/-- Character class of a domain label in `DOMAIN_RE`:
`[^\x00-\x1F\x2E\x2F\x3A\x40\x7F]`. -/
def isLabelChar (c : Char) : Bool :=
  !(c.toNat ≤ 0x1F || c.toNat = 0x2E || c.toNat = 0x2F || c.toNat = 0x3A
    || c.toNat = 0x40 || c.toNat = 0x7F)

/-- A label group of `DOMAIN_RE`: 1 to 63 characters of `isLabelChar`. -/
def validLabel (l : List Char) : Bool :=
  decide (1 ≤ l.length) && decide (l.length ≤ 63) && l.all isLabelChar

/-- Digit run of the `(:\d{1,5})` / `(\d{1,5})` port groups. -/
def validPortDigits (d : List Char) : Bool :=
  decide (1 ≤ d.length) && decide (d.length ≤ 5) && d.all Char.isDigit

/-- Split a string at its first `':'`: `(before, some after)` when a colon is
present, `(s, none)` otherwise.  Because `':'` is excluded from every other
character class of the anchored patterns, a whole-string match forces the
port group to start at the first colon. -/
def splitPort : List Char → List Char × Option (List Char)
  | [] => ([], none)
  | c :: rest =>
    if c = ':' then ([], some rest)
    else
      let r := splitPort rest
      (c :: r.1, r.2)

/-- Split a string on `'.'` (n dots give n+1 pieces, like `str::split('.')`). -/
def splitOnDot : List Char → List (List Char)
  | [] => [[]]
  | c :: rest =>
    if c = '.' then [] :: splitOnDot rest
    else
      match splitOnDot rest with
      | [] => [[c]]
      | h :: t => (c :: h) :: t

/-- Numeric value of a big-endian ASCII decimal digit string
(the accumulator loop of `str::parse`). -/
def digitsVal (d : List Char) : Nat :=
  d.foldl (fun a c => a * 10 + (c.toNat - 48)) 0

/-- Model of `str::parse::<u16>` on a digit capture: the digits are ASCII by
construction, so parsing fails exactly when the value exceeds `u16::MAX`. -/
def parseU16 (d : List Char) : Option Nat :=
  if digitsVal d ≤ 65535 then some (digitsVal d) else none

/-- Fuel-driven core of decimal rendering (structural recursion so that the
kernel can evaluate it). -/
def toDecAux : Nat → Nat → List Char
  | 0, _ => []
  | fuel + 1, n =>
    if n = 0 then [] else toDecAux fuel (n / 10) ++ [Char.ofNat (n % 10 + 48)]

/-- Decimal rendering of a natural number (`u16::to_string`,
`Ipv4Addr` octet rendering). -/
def decimalDigits (n : Nat) : List Char :=
  if n = 0 then ['0'] else toDecAux n n

/-- Rust slice `s[a..b]` on character positions: panics (`none`) unless
`a ≤ b ≤ s.length`. -/
def sliceChars (s : List Char) (a b : Nat) : Option (List Char) :=
  if a ≤ b ∧ b ≤ s.length then some ((s.drop a).take (b - a)) else none

/-- Rust `usize` subtraction by one: panics (`none`) on underflow. -/
def sub1 (n : Nat) : Option Nat :=
  if n = 0 then none else some (n - 1)

/-- The tri-state policy `ValidatorOption` of `src/lib.rs`. -/
inductive ValidatorOption
  | Must
  | Allow
  | NotAllow
deriving DecidableEq

/-- `ValidatorOption::allow` from `src/lib.rs`. -/
def ValidatorOption.allow : ValidatorOption → Bool
  | .Must => true
  | .Allow => true
  | .NotAllow => false

/-- `ValidatorOption::not_allow` from `src/lib.rs`. -/
def ValidatorOption.not_allow : ValidatorOption → Bool
  | .Must => false
  | .Allow => false
  | .NotAllow => true

/-- `ValidatorOption::must` from `src/lib.rs`. -/
def ValidatorOption.must : ValidatorOption → Bool
  | .Must => true
  | .Allow => false
  | .NotAllow => false

/-- `DomainError` from `src/domain/mod.rs` (the `UTF8Error` variant carries a
decoding error that cannot arise from already-decoded input and is omitted). -/
inductive DomainError
  | IncorrectFormat
  | IncorrectPort
  | PortNotAllow
  | PortNotFound
  | LocalhostNotAllow
  | LocalhostNotFound
deriving DecidableEq

/-- The `Domain` descriptor struct of `src/domain/mod.rs`. -/
structure Domain where
  top_level_domain : Nat
  domain : Nat
  port : Nat
  port_index : Nat
  full_domain : List Char
  full_domain_len : Nat
  is_localhost : Bool
deriving DecidableEq

/-- The `DomainValidator` struct of `src/domain/mod.rs`. -/
structure DomainValidator where
  port : ValidatorOption
  localhost : ValidatorOption
deriving DecidableEq

/-- A regex capture-group match: start/end character positions and text,
mirroring `regex::Match` (`start()`, `end()`, `as_str()`). -/
structure RMatch where
  start : Nat
  stop : Nat
  text : List Char
deriving DecidableEq

/-- The capture groups of `DOMAIN_RE` that `parse_inner` reads:
group 1 (the leading `label.` repetition), group 3 (the final/domain label),
group 4 (`.` plus the candidate top-level label), group 5 (`:` plus the
port digits). -/
structure DomainCaptures where
  g1 : Option Unit
  g3 : Option RMatch
  g4 : Option RMatch
  g5 : Option RMatch
deriving DecidableEq

/-- Captures of the anchored
`^(([^…]{1,63}\.)*?)*?([^…]{1,63})(\.[^…]{1,63})?(:\d{1,5})?$`
(`DOMAIN_RE`) under the regex crate's leftmost-first (lazy-preferred)
semantics.  Because `':'` and `'.'` are excluded from the label class, a
whole-string match decomposes uniquely into dot-separated labels plus an
optional `:digits` suffix; laziness of the two leading stars makes group 1
participate exactly when there are at least three labels and leaves group 3
the second-to-last label (or the only one), group 4 the final `.label` of a
multi-label host. -/
def domainCaptures (s : List Char) : Option DomainCaptures :=
  let hp := splitPort s
  let host := hp.1
  let labels := splitOnDot host
  if labels.all validLabel then
    let portOk : Bool :=
      match hp.2 with
      | none => true
      | some d => validPortDigits d
    if portOk then
      let g5 : Option RMatch :=
        match hp.2 with
        | none => none
        | some d => some ⟨host.length, s.length, ':' :: d⟩
      match labels.reverse with
      | [] => none
      | [l1] =>
        some ⟨none, some ⟨0, host.length, l1⟩, none, g5⟩
      | l4 :: l3 :: rest =>
        let g4start := host.length - (l4.length + 1)
        some ⟨if rest.isEmpty then none else some (),
              some ⟨g4start - l3.length, g4start, l3⟩,
              some ⟨g4start, host.length, '.' :: l4⟩,
              g5⟩
    else none
  else none

/-- `DomainValidator::parse_inner` from `src/domain/mod.rs`.  `none` models a
panic (the `unreachable!()` arm or a panicking slice); `some (.error e)` the
`Err` returns; `some (.ok d)` the final `Ok` (with the not-yet-attached empty
`full_domain`, exactly as in the source). -/
def DomainValidator.parse_inner (v : DomainValidator) (full_domain : List Char) :
    Option (Except DomainError Domain) :=
  match domainCaptures full_domain with
  | none => some (.error .IncorrectFormat)
  | some c =>
    let full_domain_len := full_domain.length
    match c.g3 with
    | none => none
    | some m3 =>
      let lowered_domain := m3.text.map Char.toLower
      let is_localhost := lowered_domain = "localhost".data
      if v.localhost.must && !is_localhost then some (.error .LocalhostNotFound)
      else if utf8Len (full_domain.take m3.stop) > 255 then
        some (.error .IncorrectFormat)
      else
        let domain := m3.start
        let tld : Except DomainError (Nat × Bool) :=
          match c.g4 with
          | some m4 =>
            if is_localhost && v.localhost.must then .error .LocalhostNotFound
            else if utf8Len (full_domain.take m4.stop) > 255 then
              .error .IncorrectFormat
            else .ok (m4.start + 1, false)
          | none =>
            if is_localhost && v.localhost.not_allow then
              .error .LocalhostNotAllow
            else if !is_localhost then .error .IncorrectFormat
            else .ok (full_domain_len, is_localhost)
        match tld with
        | .error e => some (.error e)
        | .ok (top_level_domain, is_localhost) =>
          if c.g1.isSome && is_localhost then some (.error .LocalhostNotFound)
          else
            match c.g5 with
            | some m5 =>
              if v.port.not_allow then some (.error .PortNotAllow)
              else
                let index := m5.start + 1
                match sliceChars full_domain index m5.stop with
                | none => none
                | some digits =>
                  match parseU16 digits with
                  | none => some (.error .IncorrectPort)
                  | some p =>
                    some (.ok ⟨top_level_domain, domain, p, index, [],
                               full_domain_len, is_localhost⟩)
            | none =>
              if v.port.must then some (.error .PortNotFound)
              else
                some (.ok ⟨top_level_domain, domain, 0, full_domain_len, [],
                           full_domain_len, is_localhost⟩)

/-- `DomainValidator::parse_string` (attaches the owned input as
`full_domain`). -/
def DomainValidator.parse_string (v : DomainValidator) (full_domain : List Char) :
    Option (Except DomainError Domain) :=
  match v.parse_inner full_domain with
  | none => none
  | some (.error e) => some (.error e)
  | some (.ok d) => some (.ok { d with full_domain := full_domain })

/-- `DomainValidator::parse_str` (pushes the borrowed input onto the empty
owned buffer — observably the same attachment). -/
def DomainValidator.parse_str (v : DomainValidator) (full_domain : List Char) :
    Option (Except DomainError Domain) :=
  match v.parse_inner full_domain with
  | none => none
  | some (.error e) => some (.error e)
  | some (.ok d) => some (.ok { d with full_domain := d.full_domain ++ full_domain })

/-- `DomainValidator::is_domain`. -/
def DomainValidator.is_domain (v : DomainValidator) (full_domain : List Char) :
    Option Bool :=
  match v.parse_inner full_domain with
  | none => none
  | some r => some r.toBool

/-- `Domain::get_top_level_domain`.  The outer `Option` is the panic layer
(slicing / `usize` subtraction), the inner `Option` the Rust return type. -/
def Domain.get_top_level_domain (d : Domain) : Option (Option (List Char)) :=
  if d.top_level_domain ≠ d.full_domain_len then
    if d.port_index ≠ d.full_domain_len then
      match sub1 d.port_index with
      | none => none
      | some p =>
        match sliceChars d.full_domain d.top_level_domain p with
        | none => none
        | some t => some (some t)
    else
      match sliceChars d.full_domain d.top_level_domain d.full_domain.length with
      | none => none
      | some t => some (some t)
  else some none

/-- `Domain::get_domain` (outer `Option` is the panic layer). -/
def Domain.get_domain (d : Domain) : Option (List Char) :=
  if d.top_level_domain ≠ d.full_domain_len then
    match sub1 d.top_level_domain with
    | none => none
    | some t => sliceChars d.full_domain d.domain t
  else
    if d.port_index ≠ d.full_domain_len then
      match sub1 d.port_index with
      | none => none
      | some p => sliceChars d.full_domain d.domain p
    else sliceChars d.full_domain d.domain d.full_domain.length

/-- `Domain::get_sub_domain` (outer `Option` is the panic layer). -/
def Domain.get_sub_domain (d : Domain) : Option (Option (List Char)) :=
  if d.domain > 0 then
    match sub1 d.domain with
    | none => none
    | some p =>
      match sliceChars d.full_domain 0 p with
      | none => none
      | some t => some (some t)
  else some none

/-- `Domain::get_full_domain`. -/
def Domain.get_full_domain (d : Domain) : List Char :=
  d.full_domain

/-- `Domain::get_full_domain_without_port` (outer `Option` is the panic
layer). -/
def Domain.get_full_domain_without_port (d : Domain) : Option (List Char) :=
  if d.port_index ≠ d.full_domain_len then
    match sub1 d.port_index with
    | none => none
    | some p => sliceChars d.full_domain 0 p
  else some d.full_domain

/-- `Domain::get_port`. -/
def Domain.get_port (d : Domain) : Option Nat :=
  if d.port_index ≠ d.full_domain_len then some d.port else none

/-- `Domain::is_localhost` (accessor). -/
def Domain.is_localhost_acc (d : Domain) : Bool :=
  d.is_localhost

/-- The `PartialEq for Domain` implementation: equality compares only the
owned `full_domain` string. -/
def Domain.beq (a b : Domain) : Bool :=
  a.full_domain = b.full_domain

/-- The `Hash for Domain` implementation feeds exactly `full_domain` to the
hasher, so the hasher input stream is modelled as that string: any `Hasher`
yields identical states on descriptors with identical `hashInput`. -/
def Domain.hashInput (d : Domain) : List Char :=
  d.full_domain

/-- The `from_domain` constructor stamped out by the `extend!` macro in
`src/domain/mod.rs` (lines 479-508), with the macro's `$port` / `$localhost`
parameters made explicit.  Note the source's `NotAllow` arm tests
`port_index == full_domain_len` — the same condition as the `Must` arm. -/
def from_domain (port localhost : ValidatorOption) (domain : Domain) :
    Except DomainError Domain :=
  match port with
  | .Must =>
    if domain.port_index = domain.full_domain_len then .error .PortNotFound
    else
      match localhost with
      | .Must => if !domain.is_localhost then .error .LocalhostNotFound else .ok domain
      | .NotAllow => if domain.is_localhost then .error .LocalhostNotAllow else .ok domain
      | .Allow => .ok domain
  | .NotAllow =>
    if domain.port_index = domain.full_domain_len then .error .PortNotAllow
    else
      match localhost with
      | .Must => if !domain.is_localhost then .error .LocalhostNotFound else .ok domain
      | .NotAllow => if domain.is_localhost then .error .LocalhostNotAllow else .ok domain
      | .Allow => .ok domain
  | .Allow =>
    match localhost with
    | .Must => if !domain.is_localhost then .error .LocalhostNotFound else .ok domain
    | .NotAllow => if domain.is_localhost then .error .LocalhostNotAllow else .ok domain
    | .Allow => .ok domain

/-- One octet group of `IPV4_RE`:
`25[0-5]|2[0-4][0-9]|1[0-9]{1,2}|[1-9]?[0-9]` — the canonical decimal
renderings of 0-255 (no leading zeros). -/
def validOctet : List Char → Bool
  | [a] => a.isDigit
  | [a, b] => decide ('1' ≤ a) && decide (a ≤ '9') && b.isDigit
  | [a, b, c] =>
    (decide (a = '1') && b.isDigit && c.isDigit)
    || (decide (a = '2') && decide ('0' ≤ b) && decide (b ≤ '4') && c.isDigit)
    || (decide (a = '2') && decide (b = '5') && decide ('0' ≤ c) && decide (c ≤ '5'))
  | _ => false

/-- The capture groups of `IPV4_RE` that `parse_inner` reads: group 1 (the
whole dotted-quad address) and group 7 (the port digits). -/
structure IPv4Captures where
  g1 : Option RMatch
  g7 : Option RMatch
deriving DecidableEq

/-- Captures of the anchored
`^((octet)\.(octet)\.(octet)\.(octet))(:(\d{1,5}))?$` (`IPV4_RE`): the host
part must split on dots into exactly four octet groups; `':'` can only start
the port suffix. -/
def ipv4Captures (s : List Char) : Option IPv4Captures :=
  let hp := splitPort s
  let host := hp.1
  let parts := splitOnDot host
  if parts.length = 4 && parts.all validOctet then
    match hp.2 with
    | none => some ⟨some ⟨0, host.length, host⟩, none⟩
    | some d =>
      if validPortDigits d then
        some ⟨some ⟨0, host.length, host⟩,
              some ⟨host.length + 1, s.length, d⟩⟩
      else none
  else none

/-- `std::net::Ipv4Addr`: four octet values. -/
structure Ipv4Addr where
  o1 : Nat
  o2 : Nat
  o3 : Nat
  o4 : Nat
deriving DecidableEq

/-- `Ipv4Addr::from_str`: accepts exactly a dotted quad of canonical decimal
octets (no leading zeros, each ≤ 255). -/
def ipv4AddrFromStr (s : List Char) : Option Ipv4Addr :=
  match splitOnDot s with
  | [a, b, c, d] =>
    if validOctet a && validOctet b && validOctet c && validOctet d then
      some ⟨digitsVal a, digitsVal b, digitsVal c, digitsVal d⟩
    else none
  | _ => none

/-- `Ipv4Addr`'s `Display` rendering `"a.b.c.d"`. -/
def ipv4ToString (ip : Ipv4Addr) : List Char :=
  decimalDigits ip.o1 ++ '.' :: decimalDigits ip.o2 ++ '.' :: decimalDigits ip.o3
    ++ '.' :: decimalDigits ip.o4

/-- `Ipv4Addr::is_private`: 10/8, 172.16/12, 192.168/16. -/
def Ipv4Addr.is_private (ip : Ipv4Addr) : Bool :=
  (ip.o1 = 10) || (ip.o1 = 172 && 16 ≤ ip.o2 && ip.o2 ≤ 31)
    || (ip.o1 = 192 && ip.o2 = 168)

/-- `Ipv4Addr::is_loopback`: 127/8. -/
def Ipv4Addr.is_loopback (ip : Ipv4Addr) : Bool :=
  ip.o1 = 127

/-- `Ipv4Addr::is_link_local`: 169.254/16. -/
def Ipv4Addr.is_link_local (ip : Ipv4Addr) : Bool :=
  ip.o1 = 169 && ip.o2 = 254

/-- `Ipv4Addr::is_broadcast`: 255.255.255.255. -/
def Ipv4Addr.is_broadcast (ip : Ipv4Addr) : Bool :=
  ip.o1 = 255 && ip.o2 = 255 && ip.o3 = 255 && ip.o4 = 255

/-- `Ipv4Addr::is_documentation`: 192.0.2/24, 198.51.100/24, 203.0.113/24. -/
def Ipv4Addr.is_documentation (ip : Ipv4Addr) : Bool :=
  (ip.o1 = 192 && ip.o2 = 0 && ip.o3 = 2)
    || (ip.o1 = 198 && ip.o2 = 51 && ip.o3 = 100)
    || (ip.o1 = 203 && ip.o2 = 0 && ip.o3 = 113)

/-- `Ipv4Addr::is_unspecified`: 0.0.0.0. -/
def Ipv4Addr.is_unspecified (ip : Ipv4Addr) : Bool :=
  ip.o1 = 0 && ip.o2 = 0 && ip.o3 = 0 && ip.o4 = 0

/-- `is_local_ipv4` from `src/ipv4/mod.rs`. -/
def is_local_ipv4 (addr : Ipv4Addr) : Bool :=
  addr.is_private || addr.is_loopback || addr.is_link_local
    || addr.is_broadcast || addr.is_documentation || addr.is_unspecified

/-- `std::net::Ipv6Addr`: eight 16-bit segments. -/
structure Ipv6Addr where
  segs : List Nat
deriving DecidableEq

/-- Hexadecimal digit test. -/
def isHexDigit (c : Char) : Bool :=
  c.isDigit || (decide ('a' ≤ c) && decide (c ≤ 'f'))
    || (decide ('A' ≤ c) && decide (c ≤ 'F'))

/-- Value of a hexadecimal digit. -/
def hexVal (c : Char) : Nat :=
  if c.isDigit then c.toNat - 48
  else if decide ('a' ≤ c) && decide (c ≤ 'f') then c.toNat - 87
  else c.toNat - 55

/-- One `h16` group of an IPv6 literal: 1-4 hex digits. -/
def parseH16 (l : List Char) : Option Nat :=
  if decide (1 ≤ l.length) && decide (l.length ≤ 4) && l.all isHexDigit then
    some (l.foldl (fun a c => a * 16 + hexVal c) 0)
  else none

/-- Split a string on `':'` (like `splitOnDot`). -/
def splitOnColon : List Char → List (List Char)
  | [] => [[]]
  | c :: rest =>
    if c = ':' then [] :: splitOnColon rest
    else
      match splitOnColon rest with
      | [] => [[c]]
      | h :: t => (c :: h) :: t

/-- Parse a colon-separated group list, the last group optionally an embedded
dotted-quad IPv4 address (contributing two 16-bit segments), per RFC 4291 /
`Ipv6Addr::from_str`. -/
def parseGroups : List (List Char) → Option (List Nat)
  | [] => some []
  | [g] =>
    match parseH16 g with
    | some v => some [v]
    | none =>
      match ipv4AddrFromStr g with
      | some ip => some [ip.o1 * 256 + ip.o2, ip.o3 * 256 + ip.o4]
      | none => none
  | g :: rest =>
    match parseH16 g, parseGroups rest with
    | some v, some vs => some (v :: vs)
    | _, _ => none

/-- Find the first occurrence of `"::"`, returning the text before and
after it. -/
def splitDoubleColon : List Char → Option (List Char × List Char)
  | [] => none
  | ':' :: ':' :: rest => some ([], rest)
  | c :: rest =>
    match splitDoubleColon rest with
    | none => none
    | some (l, r) => some (c :: l, r)

/-- `Ipv6Addr::from_str`: either eight groups with no compression, or a
single `::` compression standing for at least one zero group. -/
def ipv6FromStr (s : List Char) : Option Ipv6Addr :=
  match splitDoubleColon s with
  | none =>
    match parseGroups (splitOnColon s) with
    | some gs => if gs.length = 8 then some ⟨gs⟩ else none
    | none => none
  | some (l, r) =>
    let lgs : Option (List Nat) :=
      if l.isEmpty then some [] else parseGroups (splitOnColon l)
    let rgs : Option (List Nat) :=
      if r.isEmpty then some [] else parseGroups (splitOnColon r)
    match lgs, rgs with
    | some lv, some rv =>
      if lv.length + rv.length ≤ 7 then
        some ⟨lv ++ List.replicate (8 - lv.length - rv.length) 0 ++ rv⟩
      else none
    | _, _ => none

/-- `Ipv6Addr::to_ipv4`: IPv4-compatible (`::a.b.c.d`) and IPv4-mapped
(`::ffff:a.b.c.d`) addresses reduce to the embedded IPv4 value. -/
def Ipv6Addr.to_ipv4 (ip : Ipv6Addr) : Option Ipv4Addr :=
  match ip.segs with
  | [0, 0, 0, 0, 0, g, h, i] =>
    if g = 0 || g = 0xffff then
      some ⟨h / 256, h % 256, i / 256, i % 256⟩
    else none
  | _ => none

/-- Modelled from the spec: the character material of an IPv6 literal
(colon-hex groups, optionally an embedded dotted quad).  The repository's
`src/ipv6` module, which owns `IPV6_RE` and `IPV6_PORT_RE`, is not present
under `src/`; §4.1 of the spec describes the patterns as "bare colon-hex
form and bracketed form `[...]:port`". -/
def isIpv6LitChar (c : Char) : Bool :=
  isHexDigit c || c = ':' || c = '.'

/-- Modelled from the spec: a plausible literal for the missing `IPV6_RE` /
`IPV6_PORT_RE` group 1 — nonempty colon-hex material containing at least one
colon.  (Looser than the real pattern can be; every gated literal is still
re-parsed by `Ipv6Addr::from_str`, whose failure yields the same
`IncorrectFormat` a regex mismatch would.) -/
def validIpv6Lit (l : List Char) : Bool :=
  decide (1 ≤ l.length) && l.all isIpv6LitChar && l.any (· = ':')

/-- The capture groups of the missing `IPV6_PORT_RE` that
`IPv4Validator::parse_inner` reads: group 1 (the literal inside the
brackets) and group 5 (the port digits). -/
structure Ipv6PortCaptures where
  g1 : Option RMatch
  g5 : Option RMatch
deriving DecidableEq

/-- Split at the first `']'`, returning the text before and after. -/
def splitRBracket : List Char → Option (List Char × List Char)
  | [] => none
  | c :: rest =>
    if c = ']' then some ([], rest)
    else
      match splitRBracket rest with
      | none => none
      | some (l, r) => some (c :: l, r)

/-- Modelled from the spec: captures of the missing bracketed pattern
`IPV6_PORT_RE`, anchored as `^\[literal\](:\d{1,5})?$`; group 1 is the
literal, group 5 the port digits. -/
def ipv6PortCaptures (s : List Char) : Option Ipv6PortCaptures :=
  match s with
  | [] => none
  | c0 :: rest =>
    if c0 = '[' then
      match splitRBracket rest with
      | none => none
      | some (lit, tail) =>
        if validIpv6Lit lit then
          match tail with
          | [] => some ⟨some ⟨1, 1 + lit.length, lit⟩, none⟩
          | t0 :: d =>
            if t0 = ':' then
              if validPortDigits d then
                some ⟨some ⟨1, 1 + lit.length, lit⟩,
                      some ⟨lit.length + 3, s.length, d⟩⟩
              else none
            else none
        else none
    else none

/-- Modelled from the spec: captures of the missing bare pattern `IPV6_RE`,
anchored as `^literal$`; group 1 is the whole literal. -/
def ipv6Captures (s : List Char) : Option (Option RMatch) :=
  if validIpv6Lit s then some (some ⟨0, s.length, s⟩) else none

/-- `IPv4Error` from `src/ipv4/mod.rs` (`UTF8Error` omitted, as for
`DomainError`). -/
inductive IPv4Error
  | IncorrectFormat
  | IncorrectPort
  | PortNotAllow
  | PortNotFound
  | LocalNotAllow
  | LocalNotFound
  | IPv6NotAllow
  | IPv6NotFound
deriving DecidableEq

/-- The `IPv4` descriptor struct of `src/ipv4/mod.rs`. -/
structure IPv4 where
  ip : Ipv4Addr
  port : Nat
  port_index : Nat
  full_ipv4 : List Char
  full_ipv4_len : Nat
  is_local : Bool
deriving DecidableEq

/-- The `IPv4Validator` struct of `src/ipv4/mod.rs`. -/
structure IPv4Validator where
  port : ValidatorOption
  local_ : ValidatorOption
  ipv6 : ValidatorOption
deriving DecidableEq

/-- The port-resolution step that `IPv4Validator::parse_inner` performs
twice verbatim (once for `IPV4_RE` group 7, once for `IPV6_PORT_RE` group 5):
check the port policy, slice and parse the digits, and return the port value
and `port_index` (`m.start`), or the branch's default index when the group is
absent (`ipv4.len()` in the textual branch, the initial 0 in the bracketed
branch). -/
def portFromGroup (portPolicy : ValidatorOption) (ipv4 : List Char)
    (g : Option RMatch) (defaultIdx : Nat) :
    Option (Except IPv4Error (Nat × Nat)) :=
  match g with
  | some m =>
    if portPolicy.not_allow then some (.error .PortNotAllow)
    else
      match sliceChars ipv4 m.start m.stop with
      | none => none
      | some digits =>
        match parseU16 digits with
        | some p => some (.ok (p, m.start))
        | none => some (.error .IncorrectPort)
  | none =>
    if portPolicy.must then some (.error .PortNotFound)
    else some (.ok (0, defaultIdx))

/-- The `let ip = match IPV4_RE.captures(...) ...` expression of
`IPv4Validator::parse_inner`, returning the resolved address together with
the mutable locals `port`, `port_index` and `full_ipv4_len` (`none` is the
panic layer).  Note that in the two IPv6-fallback branches the port group is
examined — and the port policy enforced — before the literal group is parsed
and the family (`ipv6`) policy enforced, and that in the bracketed no-port
sub-branch `port_index` keeps its initial value 0.  `full_ipv4_len` is used
as a flag: 1 marks a textual-IPv4 match, 0 an IPv6-derived value. -/
def IPv4Validator.parse_core (v : IPv4Validator) (ipv4 : List Char) :
    Option (Except IPv4Error (Ipv4Addr × Nat × Nat × Nat)) :=
  match ipv4Captures ipv4 with
  | some c =>
    if v.ipv6.must then some (.error .IPv6NotFound)
    else
      match portFromGroup v.port ipv4 c.g7 ipv4.length with
      | none => none
      | some (.error e) => some (.error e)
      | some (.ok (port, port_index)) =>
        match c.g1 with
        | none => none
        | some m1 =>
          match sliceChars ipv4 m1.start m1.stop with
          | none => none
          | some addrText =>
            match ipv4AddrFromStr addrText with
            | none => some (.error .IncorrectFormat)
            | some ip => some (.ok (ip, port, port_index, 1))
  | none =>
    if (ipv4.head? = some '[' : Bool) then
      match ipv6PortCaptures ipv4 with
      | none => some (.error .IncorrectFormat)
      | some c =>
        match portFromGroup v.port ipv4 c.g5 0 with
        | none => none
        | some (.error e) => some (.error e)
        | some (.ok (port, port_index)) =>
          match c.g1 with
          | none => none
          | some m1 =>
            match sliceChars ipv4 m1.start m1.stop with
            | none => none
            | some litText =>
              match ipv6FromStr litText with
              | none => some (.error .IncorrectFormat)
              | some ipv6 =>
                if v.ipv6.not_allow then some (.error .IPv6NotAllow)
                else
                  match ipv6.to_ipv4 with
                  | none => some (.error .IncorrectFormat)
                  | some ip => some (.ok (ip, port, port_index, 0))
    else
      match ipv6Captures ipv4 with
      | none => some (.error .IncorrectFormat)
      | some g1 =>
        match g1 with
        | none => none
        | some m1 =>
          match sliceChars ipv4 m1.start m1.stop with
          | none => none
          | some litText =>
            match ipv6FromStr litText with
            | none => some (.error .IncorrectFormat)
            | some ipv6 =>
              if v.ipv6.not_allow then some (.error .IPv6NotAllow)
              else
                match ipv6.to_ipv4 with
                | none => some (.error .IncorrectFormat)
                | some ip => some (.ok (ip, 0, 0, 0))

/-- `IPv4Validator::parse_inner` from `src/ipv4/mod.rs`: the address
resolution of `parse_core` followed by the locality classification and the
locality policy check (`none` is the panic layer, as for the domain
parser). -/
def IPv4Validator.parse_inner (v : IPv4Validator) (ipv4 : List Char) :
    Option (Except IPv4Error IPv4) :=
  match v.parse_core ipv4 with
  | none => none
  | some (.error e) => some (.error e)
  | some (.ok (ip, port, port_index, full_ipv4_len)) =>
    let is_local := is_local_ipv4 ip
    match v.local_ with
    | .Must =>
      if !is_local then some (.error .LocalNotFound)
      else some (.ok ⟨ip, port, port_index, [], full_ipv4_len, is_local⟩)
    | .NotAllow =>
      if is_local then some (.error .LocalNotAllow)
      else some (.ok ⟨ip, port, port_index, [], full_ipv4_len, is_local⟩)
    | .Allow => some (.ok ⟨ip, port, port_index, [], full_ipv4_len, is_local⟩)

/-- `IPv4Validator::parse_string`: attaches the owned input when the match was
textual IPv4 (`full_ipv4_len != 0` — note the flag value 1 is then kept as
the stored "length"), otherwise synthesizes the canonical IPv4-form string
from the resolved address (and port, when `port_index != 0`). -/
def IPv4Validator.parse_string (v : IPv4Validator) (full_ipv4 : List Char) :
    Option (Except IPv4Error IPv4) :=
  match v.parse_inner full_ipv4 with
  | none => none
  | some (.error e) => some (.error e)
  | some (.ok inner) =>
    if inner.full_ipv4_len ≠ 0 then
      some (.ok { inner with full_ipv4 := full_ipv4 })
    else
      let ipv4 := ipv4ToString inner.ip
      let len := ipv4.length
      if inner.port_index = 0 then
        some (.ok { inner with
          full_ipv4 := ipv4, full_ipv4_len := len, port_index := len })
      else
        let s := ipv4 ++ ':' :: decimalDigits inner.port
        some (.ok { inner with
          full_ipv4 := s, full_ipv4_len := s.length, port_index := len + 1 })

/-- `IPv4Validator::parse_str` (observably the same attachment as
`parse_string`). -/
def IPv4Validator.parse_str (v : IPv4Validator) (full_ipv4 : List Char) :
    Option (Except IPv4Error IPv4) :=
  match v.parse_inner full_ipv4 with
  | none => none
  | some (.error e) => some (.error e)
  | some (.ok inner) =>
    if inner.full_ipv4_len ≠ 0 then
      some (.ok { inner with full_ipv4 := inner.full_ipv4 ++ full_ipv4 })
    else
      let ipv4 := ipv4ToString inner.ip
      let len := ipv4.length
      if inner.port_index = 0 then
        some (.ok { inner with
          full_ipv4 := ipv4, full_ipv4_len := len, port_index := len })
      else
        let s := ipv4 ++ ':' :: decimalDigits inner.port
        some (.ok { inner with
          full_ipv4 := s, full_ipv4_len := s.length, port_index := len + 1 })

/-- `IPv4Validator::is_ipv4`. -/
def IPv4Validator.is_ipv4 (v : IPv4Validator) (full_ipv4 : List Char) :
    Option Bool :=
  match v.parse_inner full_ipv4 with
  | none => none
  | some r => some r.toBool

/-- `IPv4::get_ipv4_address`. -/
def IPv4.get_ipv4_address (x : IPv4) : Ipv4Addr :=
  x.ip

/-- `IPv4::get_port`. -/
def IPv4.get_port (x : IPv4) : Option Nat :=
  if x.port_index ≠ x.full_ipv4_len then some x.port else none

/-- `IPv4::get_full_ipv4`. -/
def IPv4.get_full_ipv4 (x : IPv4) : List Char :=
  x.full_ipv4

/-- `IPv4::get_full_ipv4_without_port` (outer `Option` is the panic layer). -/
def IPv4.get_full_ipv4_without_port (x : IPv4) : Option (List Char) :=
  if x.port_index ≠ x.full_ipv4_len then
    match sub1 x.port_index with
    | none => none
    | some p => sliceChars x.full_ipv4 0 p
  else some x.full_ipv4

/-- `IPv4::is_local` (accessor). -/
def IPv4.is_local_acc (x : IPv4) : Bool :=
  x.is_local

/-- The `PartialEq for IPv4` implementation: equality compares only the owned
`full_ipv4` string. -/
def IPv4.beq (a b : IPv4) : Bool :=
  a.full_ipv4 = b.full_ipv4

/-- The `Hash for IPv4` implementation feeds exactly `full_ipv4` to the
hasher (see `Domain.hashInput`). -/
def IPv4.hashInput (x : IPv4) : List Char :=
  x.full_ipv4

/-- The `from_ipv4` constructor stamped out by the `extend!` macro in
`src/ipv4/mod.rs` (lines 499-528); unlike the domain macro, its `NotAllow`
arm tests `port_index != full_ipv4_len`. -/
def from_ipv4 (port local_ : ValidatorOption) (ipv4 : IPv4) :
    Except IPv4Error IPv4 :=
  match port with
  | .Must =>
    if ipv4.port_index = ipv4.full_ipv4_len then .error .PortNotFound
    else
      match local_ with
      | .Must => if !ipv4.is_local then .error .LocalNotFound else .ok ipv4
      | .NotAllow => if ipv4.is_local then .error .LocalNotAllow else .ok ipv4
      | .Allow => .ok ipv4
  | .NotAllow =>
    if ipv4.port_index ≠ ipv4.full_ipv4_len then .error .PortNotAllow
    else
      match local_ with
      | .Must => if !ipv4.is_local then .error .LocalNotFound else .ok ipv4
      | .NotAllow => if ipv4.is_local then .error .LocalNotAllow else .ok ipv4
      | .Allow => .ok ipv4
  | .Allow =>
    match local_ with
    | .Must => if !ipv4.is_local then .error .LocalNotFound else .ok ipv4
    | .NotAllow => if ipv4.is_local then .error .LocalNotAllow else .ok ipv4
    | .Allow => .ok ipv4

/-- Spec-side characterization used by the `Must(localhost)` claim: the input
is the case-insensitive literal `"localhost"`, optionally followed by `':'`
and a valid port, with the port policy permitting whatever is present. -/
def localhostSpecForm (port : ValidatorOption) (s : List Char) : Prop :=
  (s.map Char.toLower = "localhost".data ∧ port ≠ .Must) ∨
  (∃ h d, s = h ++ ':' :: d ∧ h.map Char.toLower = "localhost".data ∧
    validPortDigits d = true ∧ digitsVal d ≤ 65535 ∧ port ≠ .NotAllow)

/-!  Helper lemmas about the splitting functions. -/

theorem splitPort_none {s : List Char} (h : (splitPort s).2 = none) :
    (splitPort s).1 = s := by
  induction s with
  | nil => rfl
  | cons c rest ih =>
    by_cases hc : c = ':'
    · simp [splitPort, hc] at h
    · simp only [splitPort, if_neg hc] at h ⊢
      simpa using ih h

theorem splitPort_some {s d : List Char} (h : (splitPort s).2 = some d) :
    s = (splitPort s).1 ++ ':' :: d := by
  induction s with
  | nil => simp [splitPort] at h
  | cons c rest ih =>
    by_cases hc : c = ':'
    · simp only [splitPort, if_pos hc] at h ⊢
      cases h
      simpa using hc
    · simp only [splitPort, if_neg hc] at h ⊢
      simpa using ih h

theorem splitPort_no_colon {s : List Char} (h : ∀ c ∈ s, c ≠ ':') :
    splitPort s = (s, none) := by
  induction s with
  | nil => rfl
  | cons c rest ih =>
    have hc : c ≠ ':' := h c (by simp)
    simp only [splitPort, if_neg hc]
    rw [ih (fun x hx => h x (by simp [hx]))]

theorem splitPort_append {h1 d : List Char} (h : ∀ c ∈ h1, c ≠ ':') :
    splitPort (h1 ++ ':' :: d) = (h1, some d) := by
  induction h1 with
  | nil => simp [splitPort]
  | cons c rest ih =>
    have hc : c ≠ ':' := h c (by simp)
    simp only [List.cons_append, splitPort, if_neg hc, List.append_eq]
    rw [ih (fun x hx => h x (by simp [hx]))]

theorem splitOnDot_ne_nil (s : List Char) : splitOnDot s ≠ [] := by
  cases s with
  | nil => simp [splitOnDot]
  | cons c rest =>
    by_cases hc : c = '.'
    · simp [splitOnDot, hc]
    · simp only [splitOnDot, if_neg hc]
      cases splitOnDot rest <;> simp

theorem splitOnDot_sum (s : List Char) :
    ((splitOnDot s).map List.length).sum + (splitOnDot s).length = s.length + 1 := by
  induction s with
  | nil => simp [splitOnDot]
  | cons c rest ih =>
    by_cases hc : c = '.'
    · simp only [splitOnDot, if_pos hc, List.map_cons, List.sum_cons,
        List.length_cons, List.length_nil]
      omega
    · simp only [splitOnDot, if_neg hc]
      cases hr : splitOnDot rest with
      | nil => exact absurd hr (splitOnDot_ne_nil rest)
      | cons hd tl =>
        rw [hr] at ih
        simp only [List.map_cons, List.sum_cons, List.length_cons] at ih ⊢
        omega

theorem splitOnDot_singleton {s l : List Char} (h : splitOnDot s = [l]) :
    s = l := by
  induction s generalizing l with
  | nil => simp [splitOnDot] at h; simp [h]
  | cons c rest ih =>
    by_cases hc : c = '.'
    · simp only [splitOnDot, if_pos hc] at h
      obtain ⟨-, h2⟩ := List.cons_eq_cons.mp h
      exact absurd h2 (splitOnDot_ne_nil rest)
    · simp only [splitOnDot, if_neg hc] at h
      cases hr : splitOnDot rest with
      | nil => exact absurd hr (splitOnDot_ne_nil rest)
      | cons hd tl =>
        rw [hr] at h
        obtain ⟨h1, h2⟩ := List.cons_eq_cons.mp h
        cases h2
        cases ih hr
        simp [← h1]

theorem splitOnDot_no_dot {s : List Char} (h : ∀ c ∈ s, c ≠ '.') :
    splitOnDot s = [s] := by
  induction s with
  | nil => rfl
  | cons c rest ih =>
    have hc : c ≠ '.' := h c (by simp)
    simp only [splitOnDot, if_neg hc]
    rw [ih (fun x hx => h x (by simp [hx]))]

theorem sliceChars_append (a b : List Char) (n : Nat) (h : n ≤ b.length) :
    sliceChars (a ++ b) a.length (a.length + n) = some (b.take n) := by
  unfold sliceChars
  rw [if_pos (by simp; omega)]
  congr 1
  rw [List.drop_append_of_le_length (by omega)]
  simp

theorem sliceChars_prefix (a b : List Char) :
    sliceChars (a ++ b) 0 a.length = some a := by
  unfold sliceChars
  rw [if_pos (by simp)]
  simp [List.take_left]

theorem sliceChars_self (s : List Char) : sliceChars s 0 s.length = some s := by
  unfold sliceChars
  rw [if_pos (by simp)]
  simp

theorem sliceChars_port (h1 dg : List Char) :
    sliceChars (h1 ++ ':' :: dg) (h1.length + 1) (h1 ++ ':' :: dg).length
      = some dg := by
  have e1 : h1 ++ ':' :: dg = (h1 ++ [':']) ++ dg := by simp
  have e2 : (h1 ++ ':' :: dg).length = (h1 ++ [':']).length + dg.length := by
    simp
    omega
  have e3 : h1.length + 1 = (h1 ++ [':']).length := by simp
  rw [e2, e3, e1, sliceChars_append _ _ _ (le_refl _), List.take_length]

/-- Structural description of a successful `DOMAIN_RE` match: positions of the
groups relative to the host length `H = (splitPort s).1.length`. -/
theorem domainCaptures_shape {s : List Char} {c : DomainCaptures}
    (h : domainCaptures s = some c) :
    ∃ m3, c.g3 = some m3 ∧ m3.start ≤ m3.stop ∧
      m3.stop ≤ (splitPort s).1.length ∧
      (c.g4 = none → m3.start = 0 ∧ m3.stop = (splitPort s).1.length ∧
        m3.text = (splitPort s).1 ∧ c.g1 = none) ∧
      (∀ m4, c.g4 = some m4 → m3.stop = m4.start ∧ m4.start + 2 ≤ m4.stop ∧
        m4.stop = (splitPort s).1.length) ∧
      (c.g5 = none → (splitPort s).2 = none ∧
        (splitPort s).1.length = s.length) ∧
      (∀ m5, c.g5 = some m5 → ∃ dg, (splitPort s).2 = some dg ∧
        m5.text = ':' :: dg ∧ validPortDigits dg = true ∧
        s = (splitPort s).1 ++ ':' :: dg ∧
        m5.start = (splitPort s).1.length ∧ m5.stop = s.length ∧
        s.length = (splitPort s).1.length + 1 + dg.length) := by
  have hkey : ∀ (l4 l3 : List Char) (rest : List (List Char)),
      (splitOnDot (splitPort s).1).reverse = l4 :: l3 :: rest →
      (splitOnDot (splitPort s).1).all validLabel = true →
      l4.length + l3.length + 1 ≤ (splitPort s).1.length ∧ 1 ≤ l4.length ∧
        1 ≤ l3.length ∧
        (splitPort s).1.length - (l4.length + 1) - l3.length
          + l3.length + l4.length + 1 = (splitPort s).1.length := by
    intro l4 l3 rest hrev hall
    have hsum := splitOnDot_sum (splitPort s).1
    have hlen : (splitOnDot (splitPort s).1).length = rest.length + 2 := by
      have := congrArg List.length hrev
      simpa using this
    have hmsum : ((splitOnDot (splitPort s).1).map List.length).sum
        = l4.length + l3.length + ((rest.map List.length).sum) := by
      have h1 : ((splitOnDot (splitPort s).1).map List.length).sum
          = (((splitOnDot (splitPort s).1).reverse).map List.length).sum := by
        rw [List.map_reverse, List.sum_reverse]
      rw [h1, hrev]
      simp only [List.map_cons, List.sum_cons]
      omega
    have hl4 : validLabel l4 = true := by
      have hm : l4 ∈ splitOnDot (splitPort s).1 := by
        rw [← List.mem_reverse, hrev]; simp
      exact List.all_eq_true.mp hall _ hm
    have hl4len : 1 ≤ l4.length := by
      simp only [validLabel, Bool.and_eq_true, decide_eq_true_eq] at hl4
      exact hl4.1.1
    have hl3 : validLabel l3 = true := by
      have hm : l3 ∈ splitOnDot (splitPort s).1 := by
        rw [← List.mem_reverse, hrev]; simp
      exact List.all_eq_true.mp hall _ hm
    have hl3len : 1 ≤ l3.length := by
      simp only [validLabel, Bool.and_eq_true, decide_eq_true_eq] at hl3
      exact hl3.1.1
    omega
  cases hsp : (splitPort s).2 with
  | none =>
    have hs : (splitPort s).1 = s := splitPort_none hsp
    simp only [domainCaptures, hsp] at h
    split at h
    case isFalse => exact absurd h (by simp)
    case isTrue hall =>
      simp only [if_true] at h
      cases hrev : (splitOnDot (splitPort s).1).reverse with
      | nil =>
        rw [hrev] at h
        exact absurd h (by simp)
      | cons l4 tl =>
        cases tl with
        | nil =>
          rw [hrev] at h
          simp only [Option.some_inj] at h
          subst h
          have hhost : (splitPort s).1 = l4 := splitOnDot_singleton (by
            have := congrArg List.reverse hrev
            simpa using this)
          refine ⟨_, rfl, by dsimp only; omega, by dsimp only; omega,
            ?_, ?_, ?_, ?_⟩
          · intro _
            exact ⟨rfl, rfl, by rw [hhost], rfl⟩
          · intro m4 hm4
            exact absurd hm4 (by simp)
          · intro _
            exact ⟨rfl, by rw [hs]⟩
          · intro m5 hm5
            exact absurd hm5 (by simp)
        | cons l3 rest =>
          rw [hrev] at h
          simp only [Option.some_inj] at h
          subst h
          obtain ⟨hb1, hb2, hb3, hb4⟩ := hkey l4 l3 rest hrev hall
          refine ⟨_, rfl, by dsimp only; omega, by dsimp only; omega,
            ?_, ?_, ?_, ?_⟩
          · intro hg4
            exact absurd hg4 (by simp)
          · intro m4 hm4
            simp only [Option.some_inj] at hm4
            subst hm4
            exact ⟨by dsimp only, by dsimp only; omega, by dsimp only⟩
          · intro _
            exact ⟨rfl, by rw [hs]⟩
          · intro m5 hm5
            exact absurd hm5 (by simp)
  | some dg =>
    have hsapp : s = (splitPort s).1 ++ ':' :: dg := splitPort_some hsp
    have hslen : s.length = (splitPort s).1.length + 1 + dg.length := by
      conv_lhs => rw [hsapp]
      simp
      omega
    simp only [domainCaptures, hsp] at h
    split at h
    case isFalse => exact absurd h (by simp)
    case isTrue hall =>
      split at h
      case isFalse => exact absurd h (by simp)
      case isTrue hpd =>
        cases hrev : (splitOnDot (splitPort s).1).reverse with
        | nil =>
          rw [hrev] at h
          exact absurd h (by simp)
        | cons l4 tl =>
          cases tl with
          | nil =>
            rw [hrev] at h
            simp only [Option.some_inj] at h
            subst h
            have hhost : (splitPort s).1 = l4 := splitOnDot_singleton (by
              have := congrArg List.reverse hrev
              simpa using this)
            refine ⟨_, rfl, by dsimp only; omega, by dsimp only; omega,
              ?_, ?_, ?_, ?_⟩
            · intro _
              exact ⟨rfl, rfl, by rw [hhost], rfl⟩
            · intro m4 hm4
              exact absurd hm4 (by simp)
            · intro hg5
              exact absurd hg5 (by simp)
            · intro m5 hm5
              simp only [Option.some_inj] at hm5
              subst hm5
              exact ⟨dg, rfl, rfl, hpd, hsapp, rfl, rfl, hslen⟩
          | cons l3 rest =>
            rw [hrev] at h
            simp only [Option.some_inj] at h
            subst h
            obtain ⟨hb1, hb2, hb3, hb4⟩ := hkey l4 l3 rest hrev hall
            refine ⟨_, rfl, by dsimp only; omega, by dsimp only; omega,
              ?_, ?_, ?_, ?_⟩
            · intro hg4
              exact absurd hg4 (by simp)
            · intro m4 hm4
              simp only [Option.some_inj] at hm4
              subst hm4
              exact ⟨by dsimp only, by dsimp only; omega, by dsimp only⟩
            · intro hg5
              exact absurd hg5 (by simp)
            · intro m5 hm5
              simp only [Option.some_inj] at hm5
              subst hm5
              exact ⟨dg, rfl, rfl, hpd, hsapp, rfl, rfl, hslen⟩

theorem parseU16_some {d : List Char} {p : Nat} (h : parseU16 d = some p) :
    p = digitsVal d ∧ digitsVal d ≤ 65535 := by
  unfold parseU16 at h
  split at h
  · cases h; exact ⟨rfl, by assumption⟩
  · cases h

/-- Master structural lemma about a successful domain `parse_inner`: the
descriptor's offsets are ordered and bounded, the port decomposition of the
input is recorded, and localhost classification forces the single-label
shape. -/
theorem parse_inner_ok {v : DomainValidator} {s : List Char} {d : Domain}
    (h : v.parse_inner s = some (.ok d)) :
    d.full_domain = [] ∧ d.full_domain_len = s.length ∧
    d.domain ≤ d.top_level_domain ∧ d.top_level_domain ≤ s.length ∧
    d.domain ≤ d.port_index ∧ d.port_index ≤ s.length ∧
    (d.top_level_domain ≠ s.length →
      d.domain + 1 ≤ d.top_level_domain ∧
      (d.port_index ≠ s.length → d.top_level_domain + 1 ≤ d.port_index)) ∧
    (d.port_index ≠ s.length → 1 ≤ d.port_index ∧
      ∃ hd dg, s = hd ++ ':' :: dg ∧ hd.length + 1 = d.port_index ∧
        validPortDigits dg = true ∧ d.port = digitsVal dg ∧
        digitsVal dg ≤ 65535 ∧ (splitPort s).1 = hd ∧
        (splitPort s).2 = some dg) ∧
    (d.top_level_domain = s.length → d.domain = 0) ∧
    (d.is_localhost = true → d.top_level_domain = s.length) ∧
    (d.port_index = s.length → (splitPort s).2 = none) := by
  simp only [DomainValidator.parse_inner] at h
  cases hcap : domainCaptures s with
  | none => rw [hcap] at h; exact absurd h (by simp)
  | some c =>
    rw [hcap] at h
    dsimp only at h
    obtain ⟨m3, hm3, h33, h3H, hg4none, hg4some, hg5none, hg5some⟩ :=
      domainCaptures_shape hcap
    rw [hm3] at h
    dsimp only at h
    split at h
    · simp at h
    · split at h
      · simp at h
      · cases hg4 : c.g4 with
        | some m4 =>
          obtain ⟨h34, h4a, h4b⟩ := hg4some m4 hg4
          rw [hg4] at h
          dsimp only at h
          split at h
          next e heq => simp at h
          next tld isl heq =>
            split at heq
            · simp at heq
            · split at heq
              · simp at heq
              · simp only [Except.ok.injEq, Prod.mk.injEq] at heq
                obtain ⟨h5, h6⟩ := heq
                subst h5
                subst h6
                split at h
                · simp at h
                · split at h
                  next m5 heq5 =>
                    obtain ⟨dg, hdg, hm5t, hpd, hsapp, hm5a, hm5b, hslen⟩ :=
                      hg5some m5 heq5
                    split at h
                    · simp at h
                    · have hdg1 : 1 ≤ dg.length := by
                        simp only [validPortDigits, Bool.and_eq_true,
                          decide_eq_true_eq] at hpd
                        exact hpd.1.1
                      have hslice : sliceChars s (m5.start + 1) m5.stop
                          = some dg := by
                        have hsl := sliceChars_port (splitPort s).1 dg
                        rw [← hsapp] at hsl
                        rw [hm5a, hm5b]
                        exact hsl
                      rw [hslice] at h
                      dsimp only at h
                      cases hpu : parseU16 dg with
                      | none => rw [hpu] at h; simp at h
                      | some p =>
                        rw [hpu] at h
                        obtain ⟨hp1, hp2⟩ := parseU16_some hpu
                        simp only [Option.some_inj, Except.ok.injEq] at h
                        subst h
                        refine ⟨rfl, rfl, ?_, ?_, ?_, ?_, ?_, ?_, ?_, ?_, ?_⟩
                          <;> dsimp only
                        · omega
                        · omega
                        · omega
                        · omega
                        · intro _
                          exact ⟨by omega, fun _ => by omega⟩
                        · intro _
                          refine ⟨by omega, (splitPort s).1, dg, hsapp,
                            by omega, hpd, hp1, hp2, rfl, hdg⟩
                        · intro he
                          omega
                        · intro he
                          simp at he
                        · intro he
                          exact absurd he (by omega)
                  next heq5 =>
                    obtain ⟨hspn, hHs⟩ := hg5none heq5
                    split at h
                    · simp at h
                    · simp only [Option.some_inj, Except.ok.injEq] at h
                      subst h
                      refine ⟨rfl, rfl, ?_, ?_, ?_, ?_, ?_, ?_, ?_, ?_, ?_⟩
                        <;> dsimp only
                      · omega
                      · omega
                      · omega
                      · omega
                      · intro _
                        exact ⟨by omega, fun hpi => absurd rfl hpi⟩
                      · intro hpi
                        exact absurd rfl hpi
                      · intro he
                        omega
                      · intro he
                        simp at he
                      · intro _
                        exact hspn
        | none =>
          obtain ⟨h30, h3He, h3t, hg1⟩ := hg4none hg4
          rw [hg4] at h
          dsimp only at h
          split at h
          next e heq => simp at h
          next tld isl heq =>
            split at heq
            · simp at heq
            · split at heq
              · simp at heq
              · simp only [Except.ok.injEq, Prod.mk.injEq] at heq
                obtain ⟨h5, h6⟩ := heq
                subst h5
                subst h6
                split at h
                · simp at h
                · split at h
                  next m5 heq5 =>
                    obtain ⟨dg, hdg, hm5t, hpd, hsapp, hm5a, hm5b, hslen⟩ :=
                      hg5some m5 heq5
                    split at h
                    · simp at h
                    · have hdg1 : 1 ≤ dg.length := by
                        simp only [validPortDigits, Bool.and_eq_true,
                          decide_eq_true_eq] at hpd
                        exact hpd.1.1
                      have hslice : sliceChars s (m5.start + 1) m5.stop
                          = some dg := by
                        have hsl := sliceChars_port (splitPort s).1 dg
                        rw [← hsapp] at hsl
                        rw [hm5a, hm5b]
                        exact hsl
                      rw [hslice] at h
                      dsimp only at h
                      cases hpu : parseU16 dg with
                      | none => rw [hpu] at h; simp at h
                      | some p =>
                        rw [hpu] at h
                        obtain ⟨hp1, hp2⟩ := parseU16_some hpu
                        simp only [Option.some_inj, Except.ok.injEq] at h
                        subst h
                        refine ⟨rfl, rfl, ?_, ?_, ?_, ?_, ?_, ?_, ?_, ?_, ?_⟩
                          <;> dsimp only
                        · omega
                        · omega
                        · omega
                        · omega
                        · intro he
                          exact absurd rfl he
                        · intro _
                          refine ⟨by omega, (splitPort s).1, dg, hsapp,
                            by omega, hpd, hp1, hp2, rfl, hdg⟩
                        · intro _
                          exact h30
                        · intro _
                          rfl
                        · intro he
                          exact absurd he (by omega)
                  next heq5 =>
                    obtain ⟨hspn, hHs⟩ := hg5none heq5
                    split at h
                    · simp at h
                    · simp only [Option.some_inj, Except.ok.injEq] at h
                      subst h
                      refine ⟨rfl, rfl, ?_, ?_, ?_, ?_, ?_, ?_, ?_, ?_, ?_⟩
                        <;> dsimp only
                      · omega
                      · omega
                      · omega
                      · omega
                      · intro he
                        exact absurd rfl he
                      · intro hpi
                        exact absurd rfl hpi
                      · intro _
                        exact h30
                      · intro _
                        rfl
                      · intro _
                        exact hspn

theorem sub1_pos {n : Nat} (h : 1 ≤ n) : sub1 n = some (n - 1) := by
  unfold sub1
  rw [if_neg (by omega)]

theorem sliceChars_isSome {s : List Char} {a b : Nat} (h1 : a ≤ b)
    (h2 : b ≤ s.length) : (sliceChars s a b).isSome := by
  unfold sliceChars
  rw [if_pos ⟨h1, h2⟩]
  rfl

theorem parse_string_ok_elim {v : DomainValidator} {s : List Char} {d : Domain}
    (h : v.parse_string s = some (.ok d)) :
    ∃ d0, v.parse_inner s = some (.ok d0) ∧ d = { d0 with full_domain := s } := by
  unfold DomainValidator.parse_string at h
  cases hpi : v.parse_inner s with
  | none => rw [hpi] at h; simp at h
  | some r =>
    rw [hpi] at h
    cases r with
    | error e => simp at h
    | ok d0 =>
      dsimp only at h
      simp only [Option.some_inj, Except.ok.injEq] at h
      exact ⟨d0, rfl, h.symm⟩

theorem domain_parse_inner_isSome (v : DomainValidator) (s : List Char) :
    (v.parse_inner s).isSome := by
  simp only [DomainValidator.parse_inner]
  cases hcap : domainCaptures s with
  | none => simp
  | some c =>
    dsimp only
    obtain ⟨m3, hm3, h33, h3H, hg4none, hg4some, hg5none, hg5some⟩ :=
      domainCaptures_shape hcap
    rw [hm3]
    dsimp only
    split
    · simp
    · split
      · simp
      · cases hg4 : c.g4 with
        | some m4 =>
          obtain ⟨h34, h4a, h4b⟩ := hg4some m4 hg4
          dsimp only
          split
          next e heq => simp
          next tld isl heq =>
            split
            · simp
            · split
              next m5 heq5 =>
                obtain ⟨dg, hdg, hm5t, hpd, hsapp, hm5a, hm5b, hslen⟩ :=
                  hg5some m5 heq5
                have hslice : sliceChars s (m5.start + 1) m5.stop
                    = some dg := by
                  have hsl := sliceChars_port (splitPort s).1 dg
                  rw [← hsapp] at hsl
                  rw [hm5a, hm5b]
                  exact hsl
                split
                · simp
                · split
                  next heqs => rw [hslice] at heqs; cases heqs
                  next digits heqs =>
                    cases hpu : parseU16 digits <;> simp [hpu]
              next heq5 =>
                split <;> simp
        | none =>
          obtain ⟨h30, h3He, h3t, hg1⟩ := hg4none hg4
          dsimp only
          split
          next e heq => simp
          next tld isl heq =>
            split
            · simp
            · split
              next m5 heq5 =>
                obtain ⟨dg, hdg, hm5t, hpd, hsapp, hm5a, hm5b, hslen⟩ :=
                  hg5some m5 heq5
                have hslice : sliceChars s (m5.start + 1) m5.stop
                    = some dg := by
                  have hsl := sliceChars_port (splitPort s).1 dg
                  rw [← hsapp] at hsl
                  rw [hm5a, hm5b]
                  exact hsl
                split
                · simp
                · split
                  next heqs => rw [hslice] at heqs; cases heqs
                  next digits heqs =>
                    cases hpu : parseU16 digits <;> simp [hpu]
              next heq5 =>
                split <;> simp

theorem domain_parse_string_isSome (v : DomainValidator) (s : List Char) :
    (v.parse_string s).isSome := by
  unfold DomainValidator.parse_string
  cases hpi : v.parse_inner s with
  | none =>
    have := domain_parse_inner_isSome v s
    rw [hpi] at this
    cases this
  | some r => cases r <;> simp

theorem domain_parse_str_eq (v : DomainValidator) (s : List Char) :
    v.parse_str s = v.parse_string s := by
  unfold DomainValidator.parse_str DomainValidator.parse_string
  cases hpi : v.parse_inner s with
  | none => rfl
  | some r =>
    cases r with
    | error e => rfl
    | ok d0 =>
      dsimp only
      have hfd : d0.full_domain = [] := (parse_inner_ok hpi).1
      rw [hfd]
      rfl

theorem domain_is_domain_isSome (v : DomainValidator) (s : List Char) :
    (v.is_domain s).isSome := by
  unfold DomainValidator.is_domain
  cases hpi : v.parse_inner s with
  | none =>
    have := domain_parse_inner_isSome v s
    rw [hpi] at this
    cases this
  | some r => simp

/-- All facts needed about a descriptor produced by `parse_string`. -/
theorem parse_string_ok {v : DomainValidator} {s : List Char} {d : Domain}
    (h : v.parse_string s = some (.ok d)) :
    d.full_domain = s ∧ d.full_domain_len = s.length ∧
    d.domain ≤ d.top_level_domain ∧ d.top_level_domain ≤ s.length ∧
    d.domain ≤ d.port_index ∧ d.port_index ≤ s.length ∧
    (d.top_level_domain ≠ s.length →
      d.domain + 1 ≤ d.top_level_domain ∧
      (d.port_index ≠ s.length → d.top_level_domain + 1 ≤ d.port_index)) ∧
    (d.port_index ≠ s.length → 1 ≤ d.port_index ∧
      ∃ hd dg, s = hd ++ ':' :: dg ∧ hd.length + 1 = d.port_index ∧
        validPortDigits dg = true ∧ d.port = digitsVal dg ∧
        digitsVal dg ≤ 65535 ∧ (splitPort s).1 = hd ∧
        (splitPort s).2 = some dg) ∧
    (d.top_level_domain = s.length → d.domain = 0) ∧
    (d.is_localhost = true → d.top_level_domain = s.length) ∧
    (d.port_index = s.length → (splitPort s).2 = none) := by
  obtain ⟨d0, hpi, rfl⟩ := parse_string_ok_elim h
  obtain ⟨hfd, hlen, ha, hb, hc, hd2, he, hf, hg, hh, hi⟩ := parse_inner_ok hpi
  exact ⟨rfl, hlen, ha, hb, hc, hd2, he, hf, hg, hh, hi⟩

/-- None of the four fallible accessors can panic on a descriptor produced by
`parse_string`. -/
theorem domain_accessors_isSome {v : DomainValidator} {s : List Char}
    {d : Domain} (h : v.parse_string s = some (.ok d)) :
    d.get_top_level_domain.isSome ∧ d.get_domain.isSome ∧
    d.get_sub_domain.isSome ∧ d.get_full_domain_without_port.isSome := by
  obtain ⟨hfd, hlen, ha, hb, hc, hd2, he, hf, hg, hh, hi⟩ := parse_string_ok h
  have hL : d.full_domain.length = s.length := by rw [hfd]
  refine ⟨?_, ?_, ?_, ?_⟩
  · unfold Domain.get_top_level_domain
    split
    next ht =>
      split
      next hp =>
        obtain ⟨hp1, -⟩ := hf (by omega)
        have h2 := (he (by omega)).2 (by omega)
        obtain ⟨t, hsc⟩ := Option.isSome_iff_exists.mp
          (sliceChars_isSome (s := d.full_domain) (a := d.top_level_domain)
            (b := d.port_index - 1) (by omega) (by omega))
        simp [sub1_pos hp1, hsc]
      next hp =>
        obtain ⟨t, hsc⟩ := Option.isSome_iff_exists.mp
          (sliceChars_isSome (s := d.full_domain) (a := d.top_level_domain)
            (b := d.full_domain.length) (by omega) (by omega))
        simp [hsc]
    next ht => rfl
  · unfold Domain.get_domain
    split
    next ht =>
      have h1 := (he (by omega)).1
      obtain ⟨t, hsc⟩ := Option.isSome_iff_exists.mp
        (sliceChars_isSome (s := d.full_domain) (a := d.domain)
          (b := d.top_level_domain - 1) (by omega) (by omega))
      simp [sub1_pos (show 1 ≤ d.top_level_domain by omega), hsc]
    next ht =>
      split
      next hp =>
        obtain ⟨hp1, -⟩ := hf (by omega)
        have hdom0 : d.domain = 0 := hg (by omega)
        obtain ⟨t, hsc⟩ := Option.isSome_iff_exists.mp
          (sliceChars_isSome (s := d.full_domain) (a := d.domain)
            (b := d.port_index - 1) (by omega) (by omega))
        simp [sub1_pos hp1, hsc]
      next hp =>
        obtain ⟨t, hsc⟩ := Option.isSome_iff_exists.mp
          (sliceChars_isSome (s := d.full_domain) (a := d.domain)
            (b := d.full_domain.length) (by omega) (by omega))
        simp [hsc]
  · unfold Domain.get_sub_domain
    split
    next hdm =>
      obtain ⟨t, hsc⟩ := Option.isSome_iff_exists.mp
        (sliceChars_isSome (s := d.full_domain) (a := 0)
          (b := d.domain - 1) (by omega) (by omega))
      simp [sub1_pos (show 1 ≤ d.domain by omega), hsc]
    next hdm => rfl
  · unfold Domain.get_full_domain_without_port
    split
    next hp =>
      obtain ⟨hp1, -⟩ := hf (by omega)
      obtain ⟨t, hsc⟩ := Option.isSome_iff_exists.mp
        (sliceChars_isSome (s := d.full_domain) (a := 0)
          (b := d.port_index - 1) (by omega) (by omega))
      simp [sub1_pos hp1, hsc]
    next hp => rfl

/-!  IPv4-side structural lemmas. -/

theorem validOctet_bracket (t : List Char) : validOctet ('[' :: t) = false := by
  match t with
  | [] => rfl
  | [b] => rfl
  | [b, c] => rfl
  | _ :: _ :: _ :: _ => rfl

theorem splitOnDot_cons_bracket (x : List Char) :
    ∃ hd tl, splitOnDot ('[' :: x) = ('[' :: hd) :: tl := by
  cases hr : splitOnDot x with
  | nil => exact absurd hr (splitOnDot_ne_nil x)
  | cons hd tl =>
    refine ⟨hd, tl, ?_⟩
    simp only [splitOnDot, if_neg (by decide : ¬('[' = '.'))]
    rw [hr]

theorem ipv4Captures_bracket (t : List Char) : ipv4Captures ('[' :: t) = none := by
  have h1 : splitPort ('[' :: t) = ('[' :: (splitPort t).1, (splitPort t).2) := by
    simp [splitPort]
  obtain ⟨hd, tl, h2⟩ := splitOnDot_cons_bracket (splitPort t).1
  simp only [ipv4Captures, h1, h2]
  simp [validOctet_bracket]

theorem splitRBracket_some {r l t' : List Char}
    (h : splitRBracket r = some (l, t')) : r = l ++ ']' :: t' := by
  induction r generalizing l with
  | nil => simp [splitRBracket] at h
  | cons c rest ih =>
    by_cases hc : c = ']'
    · subst hc
      simp only [splitRBracket, if_pos rfl, Option.some_inj, Prod.mk.injEq] at h
      obtain ⟨rfl, rfl⟩ := h
      rfl
    · simp only [splitRBracket, if_neg hc] at h
      cases hsr : splitRBracket rest with
      | none => rw [hsr] at h; simp at h
      | some p =>
        obtain ⟨l0, r0⟩ := p
        rw [hsr] at h
        simp only [Option.some_inj, Prod.mk.injEq] at h
        obtain ⟨h1, h2⟩ := h
        subst h2
        rw [← h1]
        rw [ih hsr]
        rfl

theorem ipv4Captures_shape {s : List Char} {c : IPv4Captures}
    (h : ipv4Captures s = some c) :
    ∃ m1, c.g1 = some m1 ∧ m1.start = 0 ∧
      m1.stop = (splitPort s).1.length ∧ m1.text = (splitPort s).1 ∧
      1 ≤ (splitPort s).1.length ∧ (splitPort s).1.length ≤ s.length ∧
      (c.g7 = none → (splitPort s).2 = none ∧
        (splitPort s).1.length = s.length) ∧
      (∀ m7, c.g7 = some m7 → ∃ dg, (splitPort s).2 = some dg ∧
        m7.start = (splitPort s).1.length + 1 ∧ m7.stop = s.length ∧
        m7.text = dg ∧ validPortDigits dg = true ∧
        s = (splitPort s).1 ++ ':' :: dg ∧
        s.length = (splitPort s).1.length + 1 + dg.length) := by
  have hsum := splitOnDot_sum (splitPort s).1
  cases hsp : (splitPort s).2 with
  | none =>
    have hs : (splitPort s).1 = s := splitPort_none hsp
    simp only [ipv4Captures, hsp] at h
    split at h
    case isFalse => exact absurd h (by simp)
    case isTrue hok =>
      have hlen4 : (splitOnDot (splitPort s).1).length = 4 := by
        simp only [Bool.and_eq_true, decide_eq_true_eq] at hok
        exact hok.1
      have hH : 1 ≤ (splitPort s).1.length := by omega
      simp only [Option.some_inj] at h
      subst h
      refine ⟨_, rfl, rfl, rfl, rfl, hH, by rw [hs], ?_, ?_⟩
      · intro _
        exact ⟨rfl, by rw [hs]⟩
      · intro m7 hm7
        exact absurd hm7 (by simp)
  | some dg =>
    have hsapp : s = (splitPort s).1 ++ ':' :: dg := splitPort_some hsp
    have hslen : s.length = (splitPort s).1.length + 1 + dg.length := by
      conv_lhs => rw [hsapp]
      simp
      omega
    simp only [ipv4Captures, hsp] at h
    split at h
    case isFalse => exact absurd h (by simp)
    case isTrue hok =>
      have hlen4 : (splitOnDot (splitPort s).1).length = 4 := by
        simp only [Bool.and_eq_true, decide_eq_true_eq] at hok
        exact hok.1
      have hH : 1 ≤ (splitPort s).1.length := by omega
      split at h
      case isFalse => exact absurd h (by simp)
      case isTrue hpd =>
        simp only [Option.some_inj] at h
        subst h
        refine ⟨_, rfl, rfl, rfl, rfl, hH, by omega, ?_, ?_⟩
        · intro hg7
          exact absurd hg7 (by simp)
        · intro m7 hm7
          simp only [Option.some_inj] at hm7
          subst hm7
          exact ⟨dg, rfl, rfl, rfl, rfl, hpd, hsapp, hslen⟩

theorem ipv6PortCaptures_shape {s : List Char} {c : Ipv6PortCaptures}
    (h : ipv6PortCaptures s = some c) :
    ∃ lit tail, s = '[' :: lit ++ ']' :: tail ∧
      c.g1 = some ⟨1, 1 + lit.length, lit⟩ ∧ validIpv6Lit lit = true ∧
      (c.g5 = none ∧ tail = [] ∨
        ∃ dg, tail = ':' :: dg ∧ validPortDigits dg = true ∧
          c.g5 = some ⟨lit.length + 3, s.length, dg⟩ ∧
          s.length = lit.length + 3 + dg.length) := by
  cases s with
  | nil => simp [ipv6PortCaptures] at h
  | cons c0 rest =>
    simp only [ipv6PortCaptures] at h
    split at h
    case isFalse => exact absurd h (by simp)
    case isTrue hc0 =>
      subst hc0
      cases hsr : splitRBracket rest with
      | none => rw [hsr] at h; exact absurd h (by simp)
      | some p =>
        obtain ⟨lit, tail⟩ := p
        have happ : rest = lit ++ ']' :: tail := splitRBracket_some hsr
        rw [hsr] at h
        dsimp only at h
        split at h
        case isFalse => exact absurd h (by simp)
        case isTrue hlit =>
          cases tail with
          | nil =>
            simp only [Option.some_inj] at h
            subst h
            exact ⟨lit, [], by simp [happ], rfl, hlit, Or.inl ⟨rfl, rfl⟩⟩
          | cons t0 d =>
            dsimp only at h
            split at h
            case isFalse => exact absurd h (by simp)
            case isTrue ht0 =>
              subst ht0
              split at h
              case isFalse => exact absurd h (by simp)
              case isTrue hpd =>
                simp only [Option.some_inj] at h
                subst h
                refine ⟨lit, ':' :: d, by simp [happ], rfl, hlit,
                  Or.inr ⟨d, rfl, hpd, rfl, ?_⟩⟩
                have : ('[' :: rest).length = rest.length + 1 := by simp
                rw [this, happ]
                simp
                omega

theorem ipv6Captures_shape {s : List Char} {g : Option RMatch}
    (h : ipv6Captures s = some g) : g = some ⟨0, s.length, s⟩ := by
  unfold ipv6Captures at h
  split at h
  · simp only [Option.some_inj] at h
    exact h.symm
  · exact absurd h (by simp)

theorem portFromGroup_isSome {pp : ValidatorOption} {ipv4 : List Char}
    {g : Option RMatch} {di : Nat}
    (hs : ∀ m, g = some m → (sliceChars ipv4 m.start m.stop).isSome) :
    (portFromGroup pp ipv4 g di).isSome := by
  cases g with
  | none => unfold portFromGroup; dsimp only; split <;> simp
  | some m =>
    unfold portFromGroup
    dsimp only
    split
    · simp
    · cases hsc : sliceChars ipv4 m.start m.stop with
      | none =>
        have := hs m rfl
        rw [hsc] at this
        cases this
      | some digits => cases hpu : parseU16 digits <;> simp [hpu]

theorem portFromGroup_ok {pp : ValidatorOption} {ipv4 : List Char}
    {g : Option RMatch} {di p idx : Nat}
    (h : portFromGroup pp ipv4 g di = some (.ok (p, idx))) :
    (g = none ∧ p = 0 ∧ idx = di) ∨
    (∃ m dg, g = some m ∧ sliceChars ipv4 m.start m.stop = some dg ∧
      parseU16 dg = some p ∧ idx = m.start) := by
  cases g with
  | none =>
    unfold portFromGroup at h
    dsimp only at h
    split at h
    · simp at h
    · simp only [Option.some_inj, Except.ok.injEq, Prod.mk.injEq] at h
      exact Or.inl ⟨rfl, h.1.symm, h.2.symm⟩
  | some m =>
    unfold portFromGroup at h
    dsimp only at h
    split at h
    · simp at h
    · cases hsc : sliceChars ipv4 m.start m.stop with
      | none => rw [hsc] at h; simp at h
      | some digits =>
        rw [hsc] at h
        dsimp only at h
        cases hpu : parseU16 digits with
        | none => rw [hpu] at h; simp at h
        | some p0 =>
          rw [hpu] at h
          simp only [Option.some_inj, Except.ok.injEq, Prod.mk.injEq] at h
          obtain ⟨h1, h2⟩ := h
          subst h1
          subst h2
          exact Or.inr ⟨m, digits, rfl, hsc, hpu, rfl⟩

theorem parse_core_isSome (v : IPv4Validator) (s : List Char) :
    (v.parse_core s).isSome := by
  unfold IPv4Validator.parse_core
  cases hcap : ipv4Captures s with
  | some c =>
    obtain ⟨m1, hm1, hm1a, hm1b, hm1t, hH1, hHs, hg7none, hg7some⟩ :=
      ipv4Captures_shape hcap
    dsimp only
    split
    · simp
    · have hpfs : (portFromGroup v.port s c.g7 s.length).isSome := by
        apply portFromGroup_isSome
        intro m hm
        obtain ⟨dg, -, hst, hsp2, -, -, -, hslen2⟩ := hg7some m hm
        rw [hst, hsp2]
        exact sliceChars_isSome (by omega) (by omega)
      cases hpf : portFromGroup v.port s c.g7 s.length with
      | none => rw [hpf] at hpfs; cases hpfs
      | some r =>
        cases r with
        | error e => simp [hpf]
        | ok t =>
          obtain ⟨p0, idx0⟩ := t
          dsimp only
          try rw [hpf]
          try dsimp only
          rw [hm1]
          dsimp only
          have hsl : (sliceChars s m1.start m1.stop).isSome := by
            rw [hm1a, hm1b]
            exact sliceChars_isSome (by omega) (by omega)
          cases hsc : sliceChars s m1.start m1.stop with
          | none => rw [hsc] at hsl; cases hsl
          | some addrText =>
            dsimp only
            cases haf : ipv4AddrFromStr addrText <;> simp [haf]
  | none =>
    dsimp only
    split
    · cases hc6 : ipv6PortCaptures s with
      | none => simp
      | some c6 =>
        obtain ⟨lit, tail, hsapp, hg1, hlit, hg5⟩ := ipv6PortCaptures_shape hc6
        have hslen : s.length = 1 + lit.length + 1 + tail.length := by
          rw [hsapp]
          simp
          omega
        have hpfs : (portFromGroup v.port s c6.g5 0).isSome := by
          apply portFromGroup_isSome
          intro m hm
          rcases hg5 with ⟨hg5n, -⟩ | ⟨dg, htail, hpd, hg5s, hslen2⟩
          · rw [hg5n] at hm; cases hm
          · rw [hg5s] at hm
            cases hm
            exact sliceChars_isSome (by dsimp only; omega)
              (by dsimp only; omega)
        cases hpf : portFromGroup v.port s c6.g5 0 with
        | none => rw [hpf] at hpfs; cases hpfs
        | some r =>
          cases r with
          | error e => simp [hpf]
          | ok t =>
            obtain ⟨p0, idx0⟩ := t
            dsimp only
            try rw [hpf]
            try dsimp only
            rw [hg1]
            dsimp only
            have hsl : (sliceChars s 1 (1 + lit.length)).isSome :=
              sliceChars_isSome (by omega) (by omega)
            cases hsc : sliceChars s 1 (1 + lit.length) with
            | none => rw [hsc] at hsl; cases hsl
            | some litText =>
              dsimp only
              cases h6 : ipv6FromStr litText with
              | none => simp [h6]
              | some ipv6 =>
                simp only [h6]
                split
                · simp
                · cases h64 : ipv6.to_ipv4 <;> simp [h64]
    · cases hc6 : ipv6Captures s with
      | none => simp
      | some g1 =>
        have hg1 := ipv6Captures_shape hc6
        subst hg1
        dsimp only
        have hsl : (sliceChars s 0 s.length).isSome :=
          sliceChars_isSome (by omega) (by omega)
        cases hsc : sliceChars s 0 s.length with
        | none => rw [hsc] at hsl; cases hsl
        | some litText =>
          dsimp only
          cases h6 : ipv6FromStr litText with
          | none => simp [h6]
          | some ipv6 =>
            simp only [h6]
            split
            · simp
            · cases h64 : ipv6.to_ipv4 <;> simp [h64]

theorem parse_core_ok {v : IPv4Validator} {s : List Char}
    {ip : Ipv4Addr} {port pi len : Nat}
    (h : v.parse_core s = some (.ok (ip, port, pi, len))) :
    (len = 1 ∧ 1 ≤ pi ∧ pi ≤ s.length ∧ 1 ≤ s.length ∧
      ipv4Captures s ≠ none ∧
      ((pi = s.length ∧ (splitPort s).2 = none) ∨
        ∃ hd dg, s = hd ++ ':' :: dg ∧ hd.length + 1 = pi ∧
          validPortDigits dg = true ∧ port = digitsVal dg ∧ pi ≠ s.length ∧
          (splitPort s).1 = hd ∧ (splitPort s).2 = some dg))
    ∨ len = 0 := by
  unfold IPv4Validator.parse_core at h
  cases hcap : ipv4Captures s with
  | some c =>
    rw [hcap] at h
    obtain ⟨m1, hm1, hm1a, hm1b, hm1t, hH1, hHs, hg7none, hg7some⟩ :=
      ipv4Captures_shape hcap
    dsimp only at h
    split at h
    · simp at h
    · cases hpf : portFromGroup v.port s c.g7 s.length with
      | none => rw [hpf] at h; simp at h
      | some r =>
        rw [hpf] at h
        cases r with
        | error e => simp at h
        | ok t =>
          obtain ⟨p0, idx0⟩ := t
          dsimp only at h
          rw [hm1] at h
          dsimp only at h
          cases hsc : sliceChars s m1.start m1.stop with
          | none => rw [hsc] at h; simp at h
          | some addrText =>
            rw [hsc] at h
            dsimp only at h
            cases haf : ipv4AddrFromStr addrText with
            | none => rw [haf] at h; simp at h
            | some ip0 =>
              rw [haf] at h
              simp only [Option.some_inj, Except.ok.injEq,
                Prod.mk.injEq] at h
              obtain ⟨-, hp, hpi, hlen⟩ := h
              subst hp
              subst hpi
              subst hlen
              left
              rcases portFromGroup_ok hpf with ⟨hg7n, hp0, hidx⟩ |
                ⟨m, dg2, hg7m, hslc, hpu, hidx⟩
              · subst hidx
                obtain ⟨hspn, -⟩ := hg7none hg7n
                exact ⟨rfl, by omega, le_refl _, by omega,
                  by simp, Or.inl ⟨rfl, hspn⟩⟩
              · obtain ⟨dg, hdg, hst, hsp2, -, hpd, hsapp, hslen2⟩ :=
                  hg7some m hg7m
                have hslv : sliceChars s m.start m.stop = some dg := by
                  rw [hst, hsp2]
                  have hsl2 := sliceChars_port (splitPort s).1 dg
                  rw [← hsapp] at hsl2
                  exact hsl2
                have hdgeq : dg2 = dg := by
                  rw [hslv] at hslc
                  exact (Option.some_inj.mp hslc).symm
                subst hdgeq
                obtain ⟨hpv, -⟩ := parseU16_some hpu
                have hdg1 : 1 ≤ dg2.length := by
                  simp only [validPortDigits, Bool.and_eq_true,
                    decide_eq_true_eq] at hpd
                  exact hpd.1.1
                refine ⟨rfl, by omega, by omega, by omega,
                  by simp, Or.inr
                  ⟨(splitPort s).1, dg2, hsapp, by omega, hpd, hpv,
                    by omega, rfl, hdg⟩⟩
  | none =>
    rw [hcap] at h
    dsimp only at h
    split at h
    · cases hc6 : ipv6PortCaptures s with
      | none => rw [hc6] at h; simp at h
      | some c6 =>
        rw [hc6] at h
        obtain ⟨lit, tail, hsapp, hg1, hlit, hg5⟩ := ipv6PortCaptures_shape hc6
        dsimp only at h
        cases hpf : portFromGroup v.port s c6.g5 0 with
        | none => rw [hpf] at h; simp at h
        | some r =>
          rw [hpf] at h
          cases r with
          | error e => simp at h
          | ok t =>
            obtain ⟨p0, idx0⟩ := t
            dsimp only at h
            rw [hg1] at h
            dsimp only at h
            cases hsc : sliceChars s 1 (1 + lit.length) with
            | none => rw [hsc] at h; simp at h
            | some litText =>
              rw [hsc] at h
              dsimp only at h
              cases h6 : ipv6FromStr litText with
              | none => rw [h6] at h; simp at h
              | some ipv6 =>
                rw [h6] at h
                dsimp only at h
                split at h
                · simp at h
                · cases h64 : ipv6.to_ipv4 with
                  | none => rw [h64] at h; simp at h
                  | some ip0 =>
                    rw [h64] at h
                    simp only [Option.some_inj, Except.ok.injEq,
                      Prod.mk.injEq] at h
                    exact Or.inr h.2.2.2.symm
    · cases hc6 : ipv6Captures s with
      | none => rw [hc6] at h; simp at h
      | some g1 =>
        rw [hc6] at h
        have hg1 := ipv6Captures_shape hc6
        subst hg1
        dsimp only at h
        cases hsc : sliceChars s 0 s.length with
        | none => rw [hsc] at h; simp at h
        | some litText =>
          rw [hsc] at h
          dsimp only at h
          cases h6 : ipv6FromStr litText with
          | none => rw [h6] at h; simp at h
          | some ipv6 =>
            rw [h6] at h
            dsimp only at h
            split at h
            · simp at h
            · cases h64 : ipv6.to_ipv4 with
              | none => rw [h64] at h; simp at h
              | some ip0 =>
                rw [h64] at h
                simp only [Option.some_inj, Except.ok.injEq,
                  Prod.mk.injEq] at h
                exact Or.inr h.2.2.2.symm

theorem ipv4_parse_inner_isSome (v : IPv4Validator) (s : List Char) :
    (v.parse_inner s).isSome := by
  unfold IPv4Validator.parse_inner
  cases hpc : v.parse_core s with
  | none =>
    have := parse_core_isSome v s
    rw [hpc] at this
    cases this
  | some r =>
    cases r with
    | error e => simp
    | ok t =>
      obtain ⟨ip, port, pi, len⟩ := t
      dsimp only
      split <;> first | (split <;> simp) | simp

theorem ipv4_parse_inner_ok {v : IPv4Validator} {s : List Char} {x : IPv4}
    (h : v.parse_inner s = some (.ok x)) :
    x.full_ipv4 = [] ∧
    v.parse_core s
      = some (.ok (x.ip, x.port, x.port_index, x.full_ipv4_len)) := by
  unfold IPv4Validator.parse_inner at h
  cases hpc : v.parse_core s with
  | none => rw [hpc] at h; simp at h
  | some r =>
    rw [hpc] at h
    cases r with
    | error e => simp at h
    | ok t =>
      obtain ⟨ip, port, pi, len⟩ := t
      dsimp only at h
      split at h
      · split at h
        · simp at h
        · simp only [Option.some_inj, Except.ok.injEq] at h
          subst h
          exact ⟨rfl, rfl⟩
      · split at h
        · simp at h
        · simp only [Option.some_inj, Except.ok.injEq] at h
          subst h
          exact ⟨rfl, rfl⟩
      · simp only [Option.some_inj, Except.ok.injEq] at h
        subst h
        exact ⟨rfl, rfl⟩

theorem decimalDigits_ne_nil (n : Nat) : decimalDigits n ≠ [] := by
  unfold decimalDigits
  split
  · simp
  · cases n with
    | zero => simp_all
    | succ m =>
      simp only [toDecAux]
      split
      · simp_all
      · simp

/-- Case split on the two attachment paths of `IPv4Validator::parse_string`:
the textual path keeps the inner descriptor (with `full_ipv4_len` still 1)
and attaches the input; the IPv6-derived path synthesizes the string. -/
theorem ipv4_parse_string_elim {v : IPv4Validator} {s : List Char} {x : IPv4}
    (h : v.parse_string s = some (.ok x)) :
    ∃ x0, v.parse_inner s = some (.ok x0) ∧
      ((x0.full_ipv4_len ≠ 0 ∧ x = { x0 with full_ipv4 := s }) ∨
       (x0.full_ipv4_len = 0 ∧ x0.port_index = 0 ∧
         x = { x0 with
               full_ipv4 := ipv4ToString x0.ip,
               full_ipv4_len := (ipv4ToString x0.ip).length,
               port_index := (ipv4ToString x0.ip).length }) ∨
       (x0.full_ipv4_len = 0 ∧ x0.port_index ≠ 0 ∧
         x = { x0 with
               full_ipv4 := ipv4ToString x0.ip ++ ':' :: decimalDigits x0.port,
               full_ipv4_len :=
                 (ipv4ToString x0.ip ++ ':' :: decimalDigits x0.port).length,
               port_index := (ipv4ToString x0.ip).length + 1 })) := by
  unfold IPv4Validator.parse_string at h
  cases hpi : v.parse_inner s with
  | none => rw [hpi] at h; simp at h
  | some r =>
    rw [hpi] at h
    cases r with
    | error e => simp at h
    | ok x0 =>
      dsimp only at h
      refine ⟨x0, rfl, ?_⟩
      split at h
      next hne =>
        simp only [Option.some_inj, Except.ok.injEq] at h
        exact Or.inl ⟨hne, h.symm⟩
      next hz =>
        push_neg at hz
        split at h
        next hp0 =>
          simp only [Option.some_inj, Except.ok.injEq] at h
          exact Or.inr (Or.inl ⟨hz, hp0, h.symm⟩)
        next hp0 =>
          simp only [Option.some_inj, Except.ok.injEq] at h
          exact Or.inr (Or.inr ⟨hz, hp0, h.symm⟩)

theorem ipv4_parse_string_isSome (v : IPv4Validator) (s : List Char) :
    (v.parse_string s).isSome := by
  unfold IPv4Validator.parse_string
  cases hpi : v.parse_inner s with
  | none =>
    have := ipv4_parse_inner_isSome v s
    rw [hpi] at this
    cases this
  | some r =>
    cases r with
    | error e => simp
    | ok x0 =>
      dsimp only
      split
      · simp
      · split <;> simp

theorem ipv4_parse_str_eq (v : IPv4Validator) (s : List Char) :
    v.parse_str s = v.parse_string s := by
  unfold IPv4Validator.parse_str IPv4Validator.parse_string
  cases hpi : v.parse_inner s with
  | none => rfl
  | some r =>
    cases r with
    | error e => rfl
    | ok x0 =>
      dsimp only
      have hfd : x0.full_ipv4 = [] := (ipv4_parse_inner_ok hpi).1
      rw [hfd]
      rfl

theorem ipv4_is_ipv4_isSome (v : IPv4Validator) (s : List Char) :
    (v.is_ipv4 s).isSome := by
  unfold IPv4Validator.is_ipv4
  cases hpi : v.parse_inner s with
  | none =>
    have := ipv4_parse_inner_isSome v s
    rw [hpi] at this
    cases this
  | some r => simp

theorem ipv4_without_port_isSome {v : IPv4Validator} {s : List Char}
    {x : IPv4} (h : v.parse_string s = some (.ok x)) :
    x.get_full_ipv4_without_port.isSome := by
  obtain ⟨x0, hpi, hcase⟩ := ipv4_parse_string_elim h
  obtain ⟨-, hcore⟩ := ipv4_parse_inner_ok hpi
  have hfacts := parse_core_ok hcore
  unfold IPv4.get_full_ipv4_without_port
  rcases hcase with ⟨hne, rfl⟩ | ⟨hz, hp0, rfl⟩ | ⟨hz, hp0, rfl⟩
  · dsimp only
    rcases hfacts with ⟨hlen1, hpi1, hpis, hs1, -, -⟩ | hlen0
    · split
      next hcond =>
        rw [sub1_pos (by omega)]
        dsimp only
        obtain ⟨t, hsc⟩ := Option.isSome_iff_exists.mp
          (sliceChars_isSome (s := s) (a := 0) (b := x0.port_index - 1)
            (by omega) (by omega))
        simp [hsc]
      next hcond => rfl
    · exact absurd hlen0 hne
  · dsimp only
    split
    next hcond => exact absurd rfl hcond
    next hcond => rfl
  · dsimp only
    have hlen : ((ipv4ToString x0.ip).length + 1 : Nat)
        ≤ (ipv4ToString x0.ip ++ ':' :: decimalDigits x0.port).length := by
      simp only [List.length_append, List.length_cons]
      omega
    split
    next hcond =>
      rw [sub1_pos (by omega)]
      dsimp only
      obtain ⟨t, hsc⟩ := Option.isSome_iff_exists.mp
        (sliceChars_isSome
          (s := ipv4ToString x0.ip ++ ':' :: decimalDigits x0.port)
          (a := 0) (b := (ipv4ToString x0.ip).length)
          (by omega) (by omega))
      simp [hsc]
    next hcond => rfl

/-!  ASCII character facts (`Char.toLower`, `Char.utf8Size`, digits). -/

theorem utf8Size_ascii {c : Char} (h : c.toNat ≤ 127) : c.utf8Size = 1 := by
  unfold Char.utf8Size
  have hle : c.val ≤ UInt32.ofNatCore 127 (by norm_num) := by
    show c.val.toNat ≤ (127 : Nat)
    exact h
  rw [if_pos hle]

theorem toNat_ofNat_valid {n : Nat} (h : n < 55296) :
    (Char.ofNat n).toNat = n := by
  unfold Char.ofNat
  have hv : n.isValidChar := Or.inl h
  rw [dif_pos hv]
  rfl

theorem char_eq_of_toNat {a b : Char} (h : a.toNat = b.toNat) : a = b := by
  have := congrArg Char.ofNat h
  rwa [Char.ofNat_toNat, Char.ofNat_toNat] at this

theorem toLower_cases (c : Char) :
    c.toLower = c ∨
      (65 ≤ c.toNat ∧ c.toNat ≤ 90 ∧ c.toLower.toNat = c.toNat + 32) := by
  unfold Char.toLower
  by_cases hc : c.toNat ≥ 65 ∧ c.toNat ≤ 90
  · refine Or.inr ⟨hc.1, hc.2, ?_⟩
    simp only [if_pos hc]
    exact toNat_ofNat_valid (by omega)
  · left
    simp only [if_neg hc]

theorem isDigit_toNat {c : Char} (hc : c.isDigit = true) :
    48 ≤ c.toNat ∧ c.toNat ≤ 57 := by
  unfold Char.isDigit at hc
  simp only [Bool.and_eq_true, decide_eq_true_eq] at hc
  exact ⟨hc.1, hc.2⟩

/-!  Decimal rendering: `decimalDigits` is a left inverse of `digitsVal` on
digit strings without leading zeros. -/

theorem toDecAux_zero (f : Nat) : toDecAux f 0 = [] := by
  cases f with
  | zero => rfl
  | succ m => simp [toDecAux]

theorem toDecAux_fuel : ∀ n f1 f2, n ≤ f1 → n ≤ f2 →
    toDecAux f1 n = toDecAux f2 n := by
  intro n
  induction n using Nat.strong_induction_on with
  | _ n ih =>
    intro f1 f2 h1 h2
    cases hn : n with
    | zero => rw [toDecAux_zero, toDecAux_zero]
    | succ m =>
      subst hn
      cases f1 with
      | zero => omega
      | succ g1 =>
        cases f2 with
        | zero => omega
        | succ g2 =>
          simp only [toDecAux, if_neg (Nat.succ_ne_zero m)]
          have hdiv : (m + 1) / 10 < m + 1 := Nat.div_lt_self (by omega) (by omega)
          rw [ih ((m + 1) / 10) hdiv g1 g2 (by omega) (by omega)]

theorem decimalDigits_step {n d : Nat} (hn : 0 < n) (hd : d < 10) :
    decimalDigits (n * 10 + d) = decimalDigits n ++ [Char.ofNat (d + 48)] := by
  have hne : n * 10 + d ≠ 0 := by omega
  unfold decimalDigits
  rw [if_neg hne, if_neg (by omega : n ≠ 0)]
  cases hm : n * 10 + d with
  | zero => omega
  | succ k =>
    rw [← hm]
    have hunf : toDecAux (n * 10 + d) (n * 10 + d)
        = toDecAux (n * 10 + d - 1) ((n * 10 + d) / 10)
          ++ [Char.ofNat ((n * 10 + d) % 10 + 48)] := by
      rw [hm]
      simp only [toDecAux, if_neg (Nat.succ_ne_zero k), Nat.add_sub_cancel]
    rw [hunf]
    have hdiv : (n * 10 + d) / 10 = n := by omega
    have hmod : (n * 10 + d) % 10 = d := by omega
    rw [hdiv, hmod]
    congr 1
    exact toDecAux_fuel n (n * 10 + d - 1) n (by omega) (le_refl n)

theorem digitsVal_snoc (l : List Char) (c : Char) :
    digitsVal (l ++ [c]) = digitsVal l * 10 + (c.toNat - 48) := by
  simp [digitsVal, List.foldl_append]

theorem digitsVal_pos_aux (l : List Char) (a : Nat) (ha : 1 ≤ a) :
    1 ≤ l.foldl (fun a c => a * 10 + (c.toNat - 48)) a := by
  induction l generalizing a with
  | nil => exact ha
  | cons c rest ih =>
    simp only [List.foldl_cons]
    exact ih _ (by omega)

theorem digitsVal_pos {l : List Char} {c : Char} (hc : c.isDigit = true)
    (hne : c ≠ '0') : 1 ≤ digitsVal (c :: l) := by
  obtain ⟨h48, h57⟩ := isDigit_toNat hc
  have hne48 : c.toNat ≠ 48 := by
    intro h
    exact hne (char_eq_of_toNat (h.trans (by decide : ('0' : Char).toNat = 48).symm))
  unfold digitsVal
  simp only [List.foldl_cons]
  exact digitsVal_pos_aux l _ (by omega)

theorem decimalDigits_digitsVal : ∀ (dg : List Char),
    dg.all Char.isDigit = true → dg ≠ [] →
    (dg.head? = some '0' → dg = ['0']) →
    decimalDigits (digitsVal dg) = dg := by
  intro dg
  induction dg using List.reverseRecOn with
  | nil => intro _ h _; exact absurd rfl h
  | append_singleton init c ih =>
    intro hall hne hlead
    have hcd : c.isDigit = true := List.all_eq_true.mp hall c (by simp)
    have hinit : ∀ x ∈ init, x.isDigit = true := by
      intro x hx
      exact List.all_eq_true.mp hall x (by simp [hx])
    obtain ⟨hc48, hc57⟩ := isDigit_toNat hcd
    cases hi : init with
    | nil =>
      subst hi
      simp only [List.nil_append]
      by_cases hc0 : c = '0'
      · subst hc0
        have : digitsVal ['0'] = 0 := by decide
        rw [this]
        rfl
      · have hne48 : c.toNat ≠ 48 := by
          intro h
          exact hc0 (char_eq_of_toNat
            (h.trans (by decide : ('0' : Char).toNat = 48).symm))
        have hval : digitsVal [c] = c.toNat - 48 := by
          simp [digitsVal]
        rw [hval]
        have hv1 : 1 ≤ c.toNat - 48 := by omega
        have hv9 : c.toNat - 48 < 10 := by omega
        unfold decimalDigits
        rw [if_neg (by omega)]
        cases hm : c.toNat - 48 with
        | zero => omega
        | succ k =>
          simp only [toDecAux, if_neg (Nat.succ_ne_zero k)]
          have h10 : (k + 1) / 10 = 0 := by omega
          rw [h10, toDecAux_zero]
          have hmod : (k + 1) % 10 = k + 1 := by omega
          rw [hmod, List.nil_append, ← hm]
          have : c.toNat - 48 + 48 = c.toNat := by omega
          rw [this, Char.ofNat_toNat]
    | cons i0 irest =>
      subst hi
      have hlead0 : (i0 :: irest).head? = some '0' → i0 :: irest = ['0'] := by
        intro h0
        have := hlead (by simp_all)
        have hlen := congrArg List.length this
        simp at hlen
      have hi0 : i0 ≠ '0' := by
        intro h
        subst h
        have := hlead (by rfl)
        have hlen := congrArg List.length this
        simp at hlen
      have hpos : 1 ≤ digitsVal (i0 :: irest) :=
        digitsVal_pos (hinit i0 (by simp)) hi0
      rw [digitsVal_snoc, decimalDigits_step hpos (by omega),
        ih (by simp_all [List.all_eq_true]) (by simp) hlead0]
      have : c.toNat - 48 + 48 = c.toNat := by omega
      rw [this, Char.ofNat_toNat]

/-- The canonical-digits consequence used by the reconstruction claims: a
valid port capture without a leading zero renders back to itself. -/
theorem decimalDigits_digitsVal_port {dg : List Char}
    (hpd : validPortDigits dg = true) (hlead : dg.head? = some '0' → dg = ['0']) :
    decimalDigits (digitsVal dg) = dg := by
  simp only [validPortDigits, Bool.and_eq_true, decide_eq_true_eq] at hpd
  exact decimalDigits_digitsVal dg hpd.2 (by
    intro h
    subst h
    simp at hpd) hlead

theorem ipv4ToString_length (ip : Ipv4Addr) : 7 ≤ (ipv4ToString ip).length := by
  unfold ipv4ToString
  have l1 := List.length_pos.mpr (decimalDigits_ne_nil ip.o1)
  have l2 := List.length_pos.mpr (decimalDigits_ne_nil ip.o2)
  have l3 := List.length_pos.mpr (decimalDigits_ne_nil ip.o3)
  have l4 := List.length_pos.mpr (decimalDigits_ne_nil ip.o4)
  simp only [List.length_append, List.length_cons]
  omega

/-!  The `Must(localhost)` analysis for C7. -/

theorem localhost_char_facts {c : Char} (hmem : c.toLower ∈ "localhost".data) :
    isLabelChar c = true ∧ c ≠ ':' ∧ c ≠ '.' ∧ c.utf8Size = 1 := by
  have hdata : "localhost".data = ['l', 'o', 'c', 'a', 'l', 'h', 'o', 's', 't'] :=
    rfl
  rw [hdata] at hmem
  simp only [List.mem_cons, List.not_mem_nil, or_false] at hmem
  have hval : 97 ≤ c.toLower.toNat ∧ c.toLower.toNat ≤ 116 := by
    rcases hmem with h | h | h | h | h | h | h | h | h <;> rw [h] <;> decide
  have hrange : (97 ≤ c.toNat ∧ c.toNat ≤ 116) ∨
      (65 ≤ c.toNat ∧ c.toNat ≤ 90) := by
    rcases toLower_cases c with heq | ⟨h1, h2, h3⟩
    · rw [heq] at hval
      exact Or.inl hval
    · exact Or.inr ⟨h1, h2⟩
  have hn : (97 ≤ c.toNat ∧ c.toNat ≤ 116) ∨ (65 ≤ c.toNat ∧ c.toNat ≤ 90) :=
    hrange
  refine ⟨?_, ?_, ?_, ?_⟩
  · simp only [isLabelChar, Bool.not_eq_true', Bool.or_eq_false_iff,
      decide_eq_false_iff_not]
    omega
  · intro h
    subst h
    have : (':' : Char).toNat = 58 := by decide
    omega
  · intro h
    subst h
    have : ('.' : Char).toNat = 46 := by decide
    omega
  · exact utf8Size_ascii (by omega)

theorem utf8Len_ascii {l : List Char} (h : ∀ c ∈ l, c.utf8Size = 1) :
    utf8Len l = l.length := by
  induction l with
  | nil => rfl
  | cons c rest ih =>
    unfold utf8Len at ih ⊢
    simp only [List.map_cons, List.sum_cons, h c (by simp)]
    rw [ih (fun x hx => h x (by simp [hx]))]
    simp [List.length_cons]
    omega

theorem localhost_host_facts {lh : List Char}
    (hlow : lh.map Char.toLower = "localhost".data) :
    lh.length = 9 ∧ (∀ c ∈ lh, c ≠ ':') ∧ (∀ c ∈ lh, c ≠ '.') ∧
      validLabel lh = true ∧ utf8Len lh = 9 := by
  have hlen : lh.length = 9 := by
    have := congrArg List.length hlow
    simpa using this
  have hmem : ∀ c ∈ lh, c.toLower ∈ "localhost".data := by
    intro c hc
    rw [← hlow]
    exact List.mem_map_of_mem _ hc
  refine ⟨hlen, fun c hc => (localhost_char_facts (hmem c hc)).2.1,
    fun c hc => (localhost_char_facts (hmem c hc)).2.2.1, ?_, ?_⟩
  · simp only [validLabel, hlen, Bool.and_eq_true, decide_eq_true_eq]
    refine ⟨⟨by omega, by omega⟩, ?_⟩
    exact List.all_eq_true.mpr fun c hc => (localhost_char_facts (hmem c hc)).1
  · rw [utf8Len_ascii (fun c hc => (localhost_char_facts (hmem c hc)).2.2.2)]
    exact hlen

theorem parse_inner_must_localhost {pp : ValidatorOption} {s : List Char}
    {d : Domain}
    (h : DomainValidator.parse_inner ⟨pp, .Must⟩ s = some (.ok d)) :
    (splitPort s).1.map Char.toLower = "localhost".data ∧
    ((splitPort s).2 = none ∧ pp ≠ .Must ∨
      ∃ dg, (splitPort s).2 = some dg ∧ validPortDigits dg = true ∧
        digitsVal dg ≤ 65535 ∧ pp ≠ .NotAllow) := by
  simp only [DomainValidator.parse_inner] at h
  cases hcap : domainCaptures s with
  | none => rw [hcap] at h; exact absurd h (by simp)
  | some c =>
    rw [hcap] at h
    dsimp only at h
    obtain ⟨m3, hm3, h33, h3H, hg4none, hg4some, hg5none, hg5some⟩ :=
      domainCaptures_shape hcap
    rw [hm3] at h
    dsimp only at h
    split at h
    case isTrue => simp at h
    case isFalse hmust =>
      have hisl : m3.text.map Char.toLower = "localhost".data := by
        simpa [ValidatorOption.must] using hmust
      split at h
      case isTrue => simp at h
      case isFalse =>
        cases hg4 : c.g4 with
        | some m4 =>
          rw [hg4] at h
          dsimp only at h
          split at h
          next e heq =>
            simp at h
          next tld isl heq =>
            rw [hisl] at heq
            simp [ValidatorOption.must] at heq
        | none =>
          obtain ⟨h30, h3He, h3t, hg1⟩ := hg4none hg4
          rw [hg4] at h
          dsimp only at h
          split at h
          next e heq => simp at h
          next tld isl heq =>
            split at h
            case isTrue => simp at h
            case isFalse =>
              split at h
              next m5 heq5 =>
                obtain ⟨dg, hdg, hm5t, hpd, hsapp, hm5a, hm5b, hslen⟩ :=
                  hg5some m5 heq5
                split at h
                case isTrue => simp at h
                case isFalse hna =>
                  have hppna : pp ≠ .NotAllow := by
                    cases pp <;> simp [ValidatorOption.not_allow] at hna ⊢
                  have hslice : sliceChars s (m5.start + 1) m5.stop
                      = some dg := by
                    have hsl := sliceChars_port (splitPort s).1 dg
                    rw [← hsapp] at hsl
                    rw [hm5a, hm5b]
                    exact hsl
                  rw [hslice] at h
                  dsimp only at h
                  cases hpu : parseU16 dg with
                  | none => rw [hpu] at h; simp at h
                  | some p =>
                    obtain ⟨hp1, hp2⟩ := parseU16_some hpu
                    refine ⟨by rw [← h3t]; exact hisl,
                      Or.inr ⟨dg, hdg, hpd, hp2, hppna⟩⟩
              next heq5 =>
                obtain ⟨hspn, hHs⟩ := hg5none heq5
                split at h
                case isTrue => simp at h
                case isFalse hm =>
                  have hppm : pp ≠ .Must := by
                    cases pp <;> simp [ValidatorOption.must] at hm ⊢
                  exact ⟨by rw [← h3t]; exact hisl, Or.inl ⟨hspn, hppm⟩⟩

theorem parse_inner_localhost_no_port {pp : ValidatorOption} {lh : List Char}
    (hlow : lh.map Char.toLower = "localhost".data) (hpp : pp ≠ .Must) :
    DomainValidator.parse_inner ⟨pp, .Must⟩ lh
      = some (.ok ⟨lh.length, 0, 0, lh.length, [], lh.length, true⟩) := by
  obtain ⟨hlen, hnc, hnd, hvl, hutf⟩ := localhost_host_facts hlow
  have hsp : splitPort lh = (lh, none) := splitPort_no_colon hnc
  have hsd : splitOnDot lh = [lh] := splitOnDot_no_dot hnd
  have hcap : domainCaptures lh
      = some ⟨none, some ⟨0, lh.length, lh⟩, none, none⟩ := by
    simp [domainCaptures, hsp, hsd, hvl]
  cases pp with
  | Must => exact absurd rfl hpp
  | Allow =>
    unfold DomainValidator.parse_inner
    rw [hcap]
    dsimp only
    rw [hlow]
    simp [ValidatorOption.must, ValidatorOption.not_allow, hutf]
  | NotAllow =>
    unfold DomainValidator.parse_inner
    rw [hcap]
    dsimp only
    rw [hlow]
    simp [ValidatorOption.must, ValidatorOption.not_allow, hutf]

theorem parse_inner_localhost_port {pp : ValidatorOption} {lh dg : List Char}
    (hlow : lh.map Char.toLower = "localhost".data)
    (hpd : validPortDigits dg = true) (hv : digitsVal dg ≤ 65535)
    (hpp : pp ≠ .NotAllow) :
    DomainValidator.parse_inner ⟨pp, .Must⟩ (lh ++ ':' :: dg)
      = some (.ok ⟨(lh ++ ':' :: dg).length, 0, digitsVal dg, lh.length + 1,
          [], (lh ++ ':' :: dg).length, true⟩) := by
  obtain ⟨hlen, hnc, hnd, hvl, hutf⟩ := localhost_host_facts hlow
  have hsp : splitPort (lh ++ ':' :: dg) = (lh, some dg) := splitPort_append hnc
  have hsd : splitOnDot lh = [lh] := splitOnDot_no_dot hnd
  have hcap : domainCaptures (lh ++ ':' :: dg)
      = some ⟨none, some ⟨0, lh.length, lh⟩, none,
          some ⟨lh.length, (lh ++ ':' :: dg).length, ':' :: dg⟩⟩ := by
    simp [domainCaptures, hsp, hsd, hvl, hpd]
  have htake : (lh ++ ':' :: dg).take lh.length = lh := List.take_left lh _
  have hslice : sliceChars (lh ++ ':' :: dg) (lh.length + 1)
      (lh ++ ':' :: dg).length = some dg := sliceChars_port lh dg
  simp only [List.length_append, List.length_cons] at hslice
  have hpu : parseU16 dg = some (digitsVal dg) := by
    unfold parseU16
    rw [if_pos hv]
  cases pp with
  | NotAllow => exact absurd rfl hpp
  | Allow =>
    unfold DomainValidator.parse_inner
    rw [hcap]
    dsimp only
    rw [hlow]
    simp [ValidatorOption.must, ValidatorOption.not_allow, htake, hutf,
      hslice, hpu]
  | Must =>
    unfold DomainValidator.parse_inner
    rw [hcap]
    dsimp only
    rw [hlow]
    simp [ValidatorOption.must, ValidatorOption.not_allow, htake, hutf,
      hslice, hpu]

/-!  Claim theorems. -/

/-- C1: parsing `"tool.magiclen.org:8080"` with port = Allow and
localhost = NotAllow succeeds, and the accessors return subdomain `"tool"`,
domain `"magiclen"`, top-level domain `"org"`, port 8080, localhost `false`
and the full original string. -/
theorem claim_C1 :
    (DomainValidator.parse_string ⟨.Allow, .NotAllow⟩
        "tool.magiclen.org:8080".data).map
      (Except.map (fun d => (d.get_sub_domain, d.get_domain,
        d.get_top_level_domain, d.get_port, d.is_localhost_acc,
        d.get_full_domain)))
      = some (.ok (some (some "tool".data), some "magiclen".data,
          some (some "org".data), some 8080, false,
          "tool.magiclen.org:8080".data)) := by
  rfl

/-- C2 counterexample: parsing `"localhost:8080"` (port = Allow,
localhost = Allow) succeeds with stored offsets `domain = 0`,
`top_level_domain = 14`, `port_index = 10`, `full_domain_len = 14`, so the
claimed chain fails at `top_level_domain ≤ port_index` (14 ≤ 10 is false). -/
theorem claim_C2_counterexample :
    (DomainValidator.parse_string ⟨.Allow, .Allow⟩ "localhost:8080".data).map
      (Except.map (fun d => (d.domain, d.top_level_domain, d.port_index,
        d.full_domain_len)))
      = some (.ok (0, 14, 10, 14)) ∧ ¬((14 : Nat) ≤ 10) :=
  ⟨by rfl, by decide⟩

/-- C2 amended: for every successful domain parse the offsets satisfy
`domain ≤ top_level_domain ≤ full_domain_len`,
`domain ≤ port_index ≤ full_domain_len` and
`full_domain_len = full_domain.length`; the link
`top_level_domain ≤ port_index` holds whenever the top-level label is
present (`top_level_domain ≠ full_domain_len`), but not in general: when the
top-level label is absent and a port is present, `top_level_domain`
(= `full_domain_len`) exceeds `port_index`. -/
theorem claim_C2_amended (v : DomainValidator) (s : List Char) (d : Domain)
    (h : v.parse_string s = some (.ok d)) :
    d.full_domain_len = d.full_domain.length ∧
    d.domain ≤ d.top_level_domain ∧
    d.top_level_domain ≤ d.full_domain_len ∧
    d.domain ≤ d.port_index ∧
    d.port_index ≤ d.full_domain_len ∧
    (d.top_level_domain ≠ d.full_domain_len →
      d.top_level_domain ≤ d.port_index) := by
  obtain ⟨hfd, hlen, ha, hb, hc, hd2, he, hf, hg, hh, hi⟩ := parse_string_ok h
  have hL : d.full_domain.length = s.length := by rw [hfd]
  refine ⟨by omega, ha, by omega, hc, by omega, ?_⟩
  intro ht
  by_cases hp : d.port_index = s.length
  · omega
  · have := (he (by omega)).2 hp
    omega

/-- Concrete descriptor produced by parsing `"localhost:8080"`. -/
def witnessDomainC2 : Domain :=
  ⟨14, 0, 8080, 10, "localhost:8080".data, 14, true⟩

/-- C2 amended, witness instance. -/
theorem claim_C2_amended_witness :
    DomainValidator.parse_string ⟨.Allow, .Allow⟩ "localhost:8080".data
        = some (.ok witnessDomainC2) ∧
      (witnessDomainC2.full_domain_len = witnessDomainC2.full_domain.length ∧
       witnessDomainC2.domain ≤ witnessDomainC2.top_level_domain ∧
       witnessDomainC2.top_level_domain ≤ witnessDomainC2.full_domain_len ∧
       witnessDomainC2.domain ≤ witnessDomainC2.port_index ∧
       witnessDomainC2.port_index ≤ witnessDomainC2.full_domain_len ∧
       (witnessDomainC2.top_level_domain ≠ witnessDomainC2.full_domain_len →
         witnessDomainC2.top_level_domain ≤ witnessDomainC2.port_index)) :=
  ⟨by rfl, claim_C2_amended ⟨.Allow, .Allow⟩ "localhost:8080".data
    witnessDomainC2 (by rfl)⟩

/-- C3 counterexample: `"[::1]:80"` is accepted by the bracketed IPv6
grammar, yet with port = NotAllow and ipv6 = NotAllow the parser returns
`PortNotAllow` — not the family-policy error `IPv6NotAllow` the claim
predicts — because in the IPv6 fallback branch the port policy is checked
first. -/
theorem claim_C3_counterexample :
    (ipv6PortCaptures "[::1]:80".data).isSome = true ∧
    IPv4Validator.parse_string ⟨.NotAllow, .Allow, .NotAllow⟩ "[::1]:80".data
      = some (.error .PortNotAllow) ∧
    IPv4Error.PortNotAllow ≠ IPv4Error.IPv6NotAllow :=
  ⟨by rfl, by rfl, by decide⟩

/-- C4: the code is wrong.  `from_domain` with the fixed port policy
`NotAllow` (the `extend!` macro, used e.g. by
`DomainUnlocalhostableWithoutPort::from_domain`) tests
`port_index == full_domain_len` — the very condition that means "no port" —
so it rejects the already-validated port-less descriptor of
`"magiclen.org"` with `PortNotAllow` (while direct parsing under the same
policy accepts that string, and rejects `"magiclen.org:8080"`), and it
accepts the descriptor of `"magiclen.org:8080"`, which carries a port. -/
theorem claim_C4_code_bug :
    ((DomainValidator.parse_string ⟨.NotAllow, .NotAllow⟩
        "magiclen.org".data).map
      (fun r => match r with
        | .ok d => (true, d.get_port,
            match from_domain .NotAllow .NotAllow d with
            | .error e => some e
            | .ok _ => none)
        | .error _ => (false, none, none))
      = some (true, none, some .PortNotAllow)) ∧
    (DomainValidator.parse_string ⟨.NotAllow, .NotAllow⟩
        "magiclen.org:8080".data
      = some (.error .PortNotAllow)) ∧
    ((DomainValidator.parse_string ⟨.Allow, .NotAllow⟩
        "magiclen.org:8080".data).map
      (fun r => match r with
        | .ok d => (true, d.get_port, (from_domain .NotAllow .NotAllow d).isOk)
        | .error _ => (false, none, false))
      = some (true, some 8080, true)) :=
  ⟨by rfl, by rfl, by rfl⟩

/-- C6: `"[::ffff:192.0.2.1]:80"` with ipv6 = Allow, port = Allow (and
local = Allow, since 192.0.2.1 is a documentation address and hence
classified local) parses to the IPv4 value 192.0.2.1 with port 80, and
`get_full_ipv4` returns the freshly synthesized `"192.0.2.1:80"`, which is
not even a substring of the original bracketed input. -/
theorem claim_C6 :
    ((IPv4Validator.parse_string ⟨.Allow, .Allow, .Allow⟩
        "[::ffff:192.0.2.1]:80".data).map
      (Except.map (fun x => (x.get_ipv4_address, x.get_port, x.get_full_ipv4)))
      = some (.ok (⟨192, 0, 2, 1⟩, some 80, "192.0.2.1:80".data))) ∧
    ¬ List.IsInfix "192.0.2.1:80".data "[::ffff:192.0.2.1]:80".data :=
  ⟨by rfl, by decide⟩

/-- C8: the parse entry points of both validators return a value for every
input and every policy — the `unreachable!()` arms and every slice and
offset subtraction in the parsers are unreachable or in-bounds (`isSome` of
the panic-modelling `Option` layer) — and the partial accessors cannot
panic on any descriptor a successful parse produces. -/
theorem claim_C8 :
    (∀ (v : DomainValidator) (s : List Char), (v.parse_string s).isSome) ∧
    (∀ (v : DomainValidator) (s : List Char), (v.parse_str s).isSome) ∧
    (∀ (v : DomainValidator) (s : List Char), (v.is_domain s).isSome) ∧
    (∀ (v : IPv4Validator) (s : List Char), (v.parse_string s).isSome) ∧
    (∀ (v : IPv4Validator) (s : List Char), (v.parse_str s).isSome) ∧
    (∀ (v : IPv4Validator) (s : List Char), (v.is_ipv4 s).isSome) ∧
    (∀ (v : DomainValidator) (s : List Char) (d : Domain),
      v.parse_string s = some (.ok d) →
        d.get_top_level_domain.isSome ∧ d.get_domain.isSome ∧
        d.get_sub_domain.isSome ∧ d.get_full_domain_without_port.isSome) ∧
    (∀ (v : IPv4Validator) (s : List Char) (x : IPv4),
      v.parse_string s = some (.ok x) →
        x.get_full_ipv4_without_port.isSome) := by
  refine ⟨domain_parse_string_isSome, ?_, domain_is_domain_isSome,
    ipv4_parse_string_isSome, ?_, ipv4_is_ipv4_isSome,
    fun v s d h => domain_accessors_isSome h,
    fun v s x h => ipv4_without_port_isSome h⟩
  · intro v s
    rw [domain_parse_str_eq]
    exact domain_parse_string_isSome v s
  · intro v s
    rw [ipv4_parse_str_eq]
    exact ipv4_parse_string_isSome v s

/-- Concrete descriptor produced by parsing `"magiclen.org:8080"`. -/
def witnessDomainC8 : Domain :=
  ⟨9, 0, 8080, 13, "magiclen.org:8080".data, 17, false⟩

/-- Concrete descriptor produced by parsing `"168.17.212.1:8080"` (note the
stored `full_ipv4_len` flag value 1 of the textual path). -/
def witnessIPv4C8 : IPv4 :=
  ⟨⟨168, 17, 212, 1⟩, 8080, 13, "168.17.212.1:8080".data, 1, false⟩

/-- C8, witness instance. -/
theorem claim_C8_witness :
    (DomainValidator.parse_string ⟨.Allow, .NotAllow⟩
        "magiclen.org:8080".data).isSome = true ∧
    (IPv4Validator.parse_string ⟨.Allow, .Allow, .NotAllow⟩
        "999.1.1.1".data).isSome = true ∧
    (witnessDomainC8.get_top_level_domain.isSome ∧
      witnessDomainC8.get_domain.isSome ∧
      witnessDomainC8.get_sub_domain.isSome ∧
      witnessDomainC8.get_full_domain_without_port.isSome) ∧
    witnessIPv4C8.get_full_ipv4_without_port.isSome :=
  ⟨claim_C8.1 _ _, claim_C8.2.2.2.1 _ _,
    claim_C8.2.2.2.2.2.2.1 ⟨.Allow, .NotAllow⟩ "magiclen.org:8080".data
      witnessDomainC8 (by rfl),
    claim_C8.2.2.2.2.2.2.2 ⟨.Allow, .Allow, .NotAllow⟩
      "168.17.212.1:8080".data witnessIPv4C8 (by rfl)⟩

/-- C9: equality and the hasher input of a descriptor depend only on the
owned full string — any two `Domain` (or `IPv4`) values whose full-string
accessors agree compare equal and feed identical data to any hasher,
whatever their other fields are. -/
theorem claim_C9 :
    (∀ a b : Domain, a.get_full_domain = b.get_full_domain →
      Domain.beq a b = true ∧ a.hashInput = b.hashInput) ∧
    (∀ a b : IPv4, a.get_full_ipv4 = b.get_full_ipv4 →
      IPv4.beq a b = true ∧ a.hashInput = b.hashInput) := by
  constructor
  · intro a b hab
    have hfd : a.full_domain = b.full_domain := hab
    exact ⟨by simp [Domain.beq, hfd], hfd⟩
  · intro a b hab
    have hfd : a.full_ipv4 = b.full_ipv4 := hab
    exact ⟨by simp [IPv4.beq, hfd], hfd⟩

/-- Two descriptors with the same owned string but different offsets, port
values and locality flags. -/
def witnessDomainC9a : Domain := ⟨0, 0, 0, 0, "ab".data, 2, false⟩

/-- Second descriptor for the C9 witness (same string, different fields). -/
def witnessDomainC9b : Domain := ⟨1, 1, 7, 2, "ab".data, 2, true⟩

/-- C9, witness instance. -/
theorem claim_C9_witness :
    witnessDomainC9a.get_full_domain = witnessDomainC9b.get_full_domain ∧
    (Domain.beq witnessDomainC9a witnessDomainC9b = true ∧
      witnessDomainC9a.hashInput = witnessDomainC9b.hashInput) :=
  ⟨by rfl, claim_C9.1 _ _ (by rfl)⟩

/-- C10: a descriptor produced by a successful parse that is classified
localhost is a single bare label — its top-level-domain and sub-domain
accessors both return (Rust) `None`. -/
theorem claim_C10 (v : DomainValidator) (s : List Char) (d : Domain)
    (h : v.parse_string s = some (.ok d)) (hl : d.is_localhost = true) :
    d.get_top_level_domain = some none ∧ d.get_sub_domain = some none := by
  obtain ⟨hfd, hlen, ha, hb, hc, hd2, he, hf, hg, hh, hi⟩ := parse_string_ok h
  have htld : d.top_level_domain = s.length := hh hl
  have hdom : d.domain = 0 := hg htld
  constructor
  · unfold Domain.get_top_level_domain
    rw [if_neg (by omega)]
  · unfold Domain.get_sub_domain
    rw [if_neg (by omega)]

/-- Concrete descriptor produced by parsing `"localhost"`. -/
def witnessDomainC10 : Domain := ⟨9, 0, 0, 9, "localhost".data, 9, true⟩

/-- C10, witness instance. -/
theorem claim_C10_witness :
    DomainValidator.parse_string ⟨.Allow, .Allow⟩ "localhost".data
        = some (.ok witnessDomainC10) ∧
      witnessDomainC10.is_localhost = true ∧
      (witnessDomainC10.get_top_level_domain = some none ∧
        witnessDomainC10.get_sub_domain = some none) :=
  ⟨by rfl, by rfl, claim_C10 ⟨.Allow, .Allow⟩ "localhost".data
    witnessDomainC10 (by rfl) (by rfl)⟩

/-- C5 amended: the reconstruction `without_port() ++ ":" ++ decimal(port) ==
full_string()` holds (1) for domain descriptors whenever the captured port
digits carry no leading zero, with the general decomposition showing
`full_domain` keeps the original digits while `decimal(port)` canonicalizes
them; (2) for textual-IPv4 descriptors (stored flag `full_ipv4_len = 1`) with
a port in the input, under the same no-leading-zero proviso; and (3)
unconditionally for IPv6-derived descriptors with a port, whose full string is
synthesized from the resolved address and canonical decimal port. -/
theorem claim_C5_amended :
    (∀ (v : DomainValidator) (s : List Char) (d : Domain) (p : Nat),
      v.parse_string s = some (.ok d) → d.get_port = some p →
      ∃ h dg, s = h ++ ':' :: dg ∧ p = digitsVal dg ∧
        d.get_full_domain_without_port = some h ∧
        d.get_full_domain = h ++ ':' :: dg ∧
        ((dg.head? = some '0' → dg = ['0']) →
          h ++ ':' :: decimalDigits p = d.get_full_domain)) ∧
    (∀ (v : IPv4Validator) (s : List Char) (x : IPv4) (dg : List Char),
      v.parse_string s = some (.ok x) → x.full_ipv4_len = 1 →
      (splitPort s).2 = some dg →
      x.get_port = some (digitsVal dg) ∧
      x.get_full_ipv4_without_port = some (splitPort s).1 ∧
      x.get_full_ipv4 = (splitPort s).1 ++ ':' :: dg ∧
      ((dg.head? = some '0' → dg = ['0']) →
        (splitPort s).1 ++ ':' :: decimalDigits (digitsVal dg)
          = x.get_full_ipv4)) ∧
    (∀ (v : IPv4Validator) (s : List Char) (x : IPv4) (p : Nat),
      v.parse_string s = some (.ok x) → x.full_ipv4_len ≠ 1 →
      x.get_port = some p →
      x.get_full_ipv4_without_port = some (ipv4ToString x.ip) ∧
      ipv4ToString x.ip ++ ':' :: decimalDigits p = x.get_full_ipv4) := by
  refine ⟨?_, ?_, ?_⟩
  · intro v s d p hps hport
    obtain ⟨hfd, hlen, ha, hb, hc, hd2, he, hf, hg, hh, hi⟩ := parse_string_ok hps
    have hpi : d.port_index ≠ d.full_domain_len := by
      by_contra hx
      unfold Domain.get_port at hport
      rw [if_neg (by simpa using hx)] at hport
      cases hport
    have hpi2 : d.port_index ≠ s.length := by rw [← hlen]; exact hpi
    obtain ⟨hpi1, hdd, dg, hsapp, hidx, hpd, hdport, hval, hsp1, hsp2⟩ := hf hpi2
    have hp : p = d.port := by
      unfold Domain.get_port at hport
      rw [if_pos hpi] at hport
      exact (Option.some_inj.mp hport).symm
    have hgfd : d.get_full_domain = hdd ++ ':' :: dg := by
      unfold Domain.get_full_domain
      rw [hfd, hsapp]
    have hwp : d.get_full_domain_without_port = some hdd := by
      unfold Domain.get_full_domain_without_port
      rw [if_pos hpi]
      have hs1 : sub1 d.port_index = some hdd.length := by
        unfold sub1
        rw [if_neg (by omega)]
        congr 1
        omega
      rw [hs1, hfd, hsapp]
      exact sliceChars_prefix hdd (':' :: dg)
    refine ⟨hdd, dg, hsapp, by rw [hp, hdport], hwp, hgfd, ?_⟩
    intro hlead
    rw [hp, hdport, decimalDigits_digitsVal_port hpd hlead, hgfd]
  · intro v s x dg hps hflag hsp
    obtain ⟨x0, hpi, hcase⟩ := ipv4_parse_string_elim hps
    obtain ⟨hfd0, hcore⟩ := ipv4_parse_inner_ok hpi
    have hfacts := parse_core_ok hcore
    rcases hcase with ⟨hne0, hx⟩ | ⟨hz, hp0, hx⟩ | ⟨hz, hpne, hx⟩
    · subst hx
      have hflag0 : x0.full_ipv4_len = 1 := hflag
      rcases hfacts with ⟨h1len, hpia, hpib, hs1, hcapne, hdisj⟩ | h0len
      · rcases hdisj with ⟨hpieq, hspn⟩ | ⟨hdd, dg2, hsapp, hidx, hpd, hport, hpine, hsp1, hsp2⟩
        · rw [hspn] at hsp; cases hsp
        · have hdg : dg2 = dg := by
            rw [hsp] at hsp2
            exact (Option.some_inj.mp hsp2).symm
          rw [hdg] at hsapp hpd hport
          have hhd1 : 1 ≤ hdd.length := by
            cases hcap : ipv4Captures s with
            | none => exact absurd hcap hcapne
            | some c =>
              obtain ⟨m1, hm1, hm1a, hm1b, hm1t, hH1, hHs, hg7n, hg7s⟩ :=
                ipv4Captures_shape hcap
              rw [hsp1] at hH1
              exact hH1
          have hgp : IPv4.get_port { x0 with full_ipv4 := s }
              = some (digitsVal dg) := by
            unfold IPv4.get_port
            rw [if_pos (by dsimp only; omega)]
            dsimp only
            rw [hport]
          have hwp : IPv4.get_full_ipv4_without_port { x0 with full_ipv4 := s }
              = some (splitPort s).1 := by
            unfold IPv4.get_full_ipv4_without_port
            rw [if_pos (by dsimp only; omega)]
            dsimp only
            have hs1' : sub1 x0.port_index = some hdd.length := by
              unfold sub1
              rw [if_neg (by omega)]
              congr 1
              omega
            rw [hs1', hsp1, hsapp]
            exact sliceChars_prefix hdd (':' :: dg)
          have hgf : IPv4.get_full_ipv4 { x0 with full_ipv4 := s }
              = (splitPort s).1 ++ ':' :: dg := by
            unfold IPv4.get_full_ipv4
            dsimp only
            rw [hsp1]
            exact hsapp
          refine ⟨hgp, hwp, hgf, ?_⟩
          intro hlead
          rw [decimalDigits_digitsVal_port hpd hlead, hgf]
      · rw [hflag0] at h0len
        cases h0len
    · subst hx
      have hl1 : (ipv4ToString x0.ip).length = 1 := hflag
      have hl7 := ipv4ToString_length x0.ip
      omega
    · subst hx
      have hle : (ipv4ToString x0.ip ++ ':' :: decimalDigits x0.port).length = 1 :=
        hflag
      have hl7 := ipv4ToString_length x0.ip
      simp only [List.length_append, List.length_cons] at hle
      omega
  · intro v s x p hps hflag hport
    obtain ⟨x0, hpi, hcase⟩ := ipv4_parse_string_elim hps
    obtain ⟨hfd0, hcore⟩ := ipv4_parse_inner_ok hpi
    have hfacts := parse_core_ok hcore
    rcases hcase with ⟨hne0, hx⟩ | ⟨hz, hp0, hx⟩ | ⟨hz, hpne, hx⟩
    · subst hx
      have h1 : x0.full_ipv4_len = 1 := by
        rcases hfacts with ⟨h1len, -⟩ | h0len
        · exact h1len
        · exact absurd h0len hne0
      exact absurd h1 hflag
    · subst hx
      unfold IPv4.get_port at hport
      rw [if_neg (by dsimp only; omega)] at hport
      cases hport
    · subst hx
      have hdecne : 1 ≤ (decimalDigits x0.port).length :=
        List.length_pos.mpr (decimalDigits_ne_nil x0.port)
      have hlenx : (ipv4ToString x0.ip ++ ':' :: decimalDigits x0.port).length
          = (ipv4ToString x0.ip).length + 1 + (decimalDigits x0.port).length := by
        simp only [List.length_append, List.length_cons]
        omega
      have hppi : (ipv4ToString x0.ip).length + 1
          ≠ (ipv4ToString x0.ip ++ ':' :: decimalDigits x0.port).length := by
        rw [hlenx]
        omega
      have hpx : p = x0.port := by
        unfold IPv4.get_port at hport
        rw [if_pos (by dsimp only; exact hppi)] at hport
        exact (Option.some_inj.mp hport).symm
      have hwp : IPv4.get_full_ipv4_without_port
          { x0 with
            full_ipv4 := ipv4ToString x0.ip ++ ':' :: decimalDigits x0.port,
            full_ipv4_len :=
              (ipv4ToString x0.ip ++ ':' :: decimalDigits x0.port).length,
            port_index := (ipv4ToString x0.ip).length + 1 }
          = some (ipv4ToString x0.ip) := by
        unfold IPv4.get_full_ipv4_without_port
        rw [if_pos (by dsimp only; exact hppi)]
        dsimp only
        have hs1' : sub1 ((ipv4ToString x0.ip).length + 1)
            = some (ipv4ToString x0.ip).length := by
          unfold sub1
          rw [if_neg (by omega)]
          simp
        rw [hs1']
        exact sliceChars_prefix (ipv4ToString x0.ip) (':' :: decimalDigits x0.port)
      refine ⟨hwp, ?_⟩
      rw [hpx]
      rfl

/-- C5 counterexample: the reconstruction identity fails for port digits with
a leading zero — `"magiclen.org:080"` parses with port 80 and without-port
text `"magiclen.org"`, but `"magiclen.org" ++ ":" ++ decimal(80)` is
`"magiclen.org:80"`, not the stored full string — and for a port-less textual
IPv4 input, where the stored flag `full_ipv4_len = 1` makes `get_port()`
return `Some(0)` and chops the without-port text to `"168.17.212."`. -/
theorem claim_C5_counterexample :
    ((DomainValidator.parse_string ⟨.Allow, .NotAllow⟩
        "magiclen.org:080".data).map
      (Except.map (fun d => (d.get_full_domain_without_port, d.get_port,
        d.get_full_domain)))
      = some (.ok (some "magiclen.org".data, some 80,
          "magiclen.org:080".data))) ∧
    "magiclen.org".data ++ ':' :: decimalDigits 80
      ≠ "magiclen.org:080".data ∧
    ((IPv4Validator.parse_string ⟨.Allow, .Allow, .NotAllow⟩
        "168.17.212.1".data).map
      (Except.map (fun x => (x.get_full_ipv4_without_port, x.get_port,
        x.get_full_ipv4)))
      = some (.ok (some "168.17.212.".data, some 0,
          "168.17.212.1".data))) ∧
    "168.17.212.".data ++ ':' :: decimalDigits 0
      ≠ "168.17.212.1".data :=
  ⟨by rfl, by decide, by rfl, by decide⟩

/-- Concrete descriptor produced by parsing `"magiclen.org:8080"` (for the
C5 witness). -/
def witnessDomainC5 : Domain :=
  ⟨9, 0, 8080, 13, "magiclen.org:8080".data, 17, false⟩

/-- Concrete textual-path descriptor produced by parsing
`"168.17.212.1:8080"`. -/
def witnessIPv4C5 : IPv4 :=
  ⟨⟨168, 17, 212, 1⟩, 8080, 13, "168.17.212.1:8080".data, 1, false⟩

/-- Concrete IPv6-derived descriptor produced by parsing
`"[::ffff:192.0.2.1]:80"`. -/
def witnessIPv4C5b : IPv4 :=
  ⟨⟨192, 0, 2, 1⟩, 80, 10, "192.0.2.1:80".data, 12, true⟩

/-- C5 amended, witness instance (one application of each of the three
parts). -/
theorem claim_C5_amended_witness :
    (∃ hd dg, "magiclen.org:8080".data = hd ++ ':' :: dg ∧
      (8080 : Nat) = digitsVal dg ∧
      witnessDomainC5.get_full_domain_without_port = some hd ∧
      witnessDomainC5.get_full_domain = hd ++ ':' :: dg ∧
      ((dg.head? = some '0' → dg = ['0']) →
        hd ++ ':' :: decimalDigits 8080 = witnessDomainC5.get_full_domain)) ∧
    (witnessIPv4C5.get_port = some (digitsVal "8080".data) ∧
      witnessIPv4C5.get_full_ipv4_without_port
        = some (splitPort "168.17.212.1:8080".data).1 ∧
      witnessIPv4C5.get_full_ipv4
        = (splitPort "168.17.212.1:8080".data).1 ++ ':' :: "8080".data ∧
      (("8080".data.head? = some '0' → "8080".data = ['0']) →
        (splitPort "168.17.212.1:8080".data).1
            ++ ':' :: decimalDigits (digitsVal "8080".data)
          = witnessIPv4C5.get_full_ipv4)) ∧
    (witnessIPv4C5b.get_full_ipv4_without_port
        = some (ipv4ToString witnessIPv4C5b.ip) ∧
      ipv4ToString witnessIPv4C5b.ip ++ ':' :: decimalDigits 80
        = witnessIPv4C5b.get_full_ipv4) :=
  ⟨claim_C5_amended.1 ⟨.Allow, .NotAllow⟩ "magiclen.org:8080".data
      witnessDomainC5 8080 (by rfl) (by rfl),
    claim_C5_amended.2.1 ⟨.Allow, .Allow, .NotAllow⟩ "168.17.212.1:8080".data
      witnessIPv4C5 "8080".data (by rfl) (by rfl) (by rfl),
    claim_C5_amended.2.2 ⟨.Allow, .Allow, .Allow⟩ "[::ffff:192.0.2.1]:80".data
      witnessIPv4C5b 80 (by rfl) (by decide) (by rfl)⟩

/-- C3 amended (spec-modelled: the bracketed grammar belongs to the missing
ipv6 module): in the bracketed-IPv6 fallback branch the PORT policy is
enforced before the family policy — for every input the bracketed
IPv6-with-port grammar accepts, a validator with port = NotAllow returns
`PortNotAllow` whatever its local and ipv6 policies, so `IPv6NotAllow` can
win only once the port check has passed. -/
theorem claim_C3_amended (lpol ipol : ValidatorOption) (s : List Char)
    (c : Ipv6PortCaptures) (h : ipv6PortCaptures s = some c)
    (hp : c.g5.isSome = true) :
    IPv4Validator.parse_string ⟨.NotAllow, lpol, ipol⟩ s
      = some (.error .PortNotAllow) := by
  obtain ⟨lit, tail, hs, hg1, hlit, hdisj⟩ := ipv6PortCaptures_shape h
  have hg5 : ∃ dg, tail = ':' :: dg ∧ validPortDigits dg = true ∧
      c.g5 = some ⟨lit.length + 3, s.length, dg⟩ ∧
      s.length = lit.length + 3 + dg.length := by
    rcases hdisj with ⟨hn, -⟩ | hd
    · rw [hn] at hp; cases hp
    · exact hd
  obtain ⟨dg, htail, hpd, hg5s, hslen⟩ := hg5
  have hcap : ipv4Captures s = none := by
    rw [hs]
    exact ipv4Captures_bracket _
  have hpf : portFromGroup ValidatorOption.NotAllow s c.g5 0
      = some (.error .PortNotAllow) := by
    rw [hg5s]
    rfl
  have hcore : IPv4Validator.parse_core ⟨.NotAllow, lpol, ipol⟩ s
      = some (.error .PortNotAllow) := by
    unfold IPv4Validator.parse_core
    rw [hcap]
    dsimp only
    have hhd : s.head? = some '[' := by rw [hs]; rfl
    rw [if_pos (by rw [hhd]; rfl)]
    rw [h]
    dsimp only
    rw [hpf]
  have hinner : IPv4Validator.parse_inner ⟨.NotAllow, lpol, ipol⟩ s
      = some (.error .PortNotAllow) := by
    unfold IPv4Validator.parse_inner
    rw [hcore]
  unfold IPv4Validator.parse_string
  rw [hinner]

/-- C3 amended, witness instance at `"[::1]:80"`. -/
theorem claim_C3_amended_witness :
    ipv6PortCaptures "[::1]:80".data
        = some ⟨some ⟨1, 4, "::1".data⟩, some ⟨6, 8, "80".data⟩⟩ ∧
      (Ipv6PortCaptures.g5
          ⟨some ⟨1, 4, "::1".data⟩, some ⟨6, 8, "80".data⟩⟩).isSome = true ∧
      IPv4Validator.parse_string ⟨.NotAllow, .Allow, .NotAllow⟩ "[::1]:80".data
        = some (.error .PortNotAllow) :=
  ⟨by rfl, by rfl,
    claim_C3_amended .Allow .NotAllow "[::1]:80".data
      ⟨some ⟨1, 4, "::1".data⟩, some ⟨6, 8, "80".data⟩⟩ (by rfl) (by rfl)⟩

/-- C7: with localhost = Must, parsing succeeds exactly when the input is the
case-insensitive literal `"localhost"`, optionally followed by `':'` and a
valid in-range port the port policy permits (`localhostSpecForm`); and every
input containing a `'.'` — in particular every multi-label host — is
rejected. -/
theorem claim_C7 (pp : ValidatorOption) (s : List Char) :
    ((∃ d, DomainValidator.parse_string ⟨pp, .Must⟩ s = some (.ok d)) ↔
      localhostSpecForm pp s) ∧
    ('.' ∈ s →
      ¬∃ d, DomainValidator.parse_string ⟨pp, .Must⟩ s = some (.ok d)) := by
  have hfwd : (∃ d, DomainValidator.parse_string ⟨pp, .Must⟩ s = some (.ok d)) →
      localhostSpecForm pp s := by
    rintro ⟨d, hd⟩
    obtain ⟨d0, hpi, -⟩ := parse_string_ok_elim hd
    obtain ⟨hlow, hdisj⟩ := parse_inner_must_localhost hpi
    rcases hdisj with ⟨hspn, hppm⟩ | ⟨dg, hsps, hpd, hval, hppna⟩
    · left
      refine ⟨?_, hppm⟩
      rw [splitPort_none hspn] at hlow
      exact hlow
    · right
      exact ⟨(splitPort s).1, dg, splitPort_some hsps, hlow, hpd, hval, hppna⟩
  constructor
  · constructor
    · exact hfwd
    · rintro (⟨hlow, hppm⟩ | ⟨lh, dg, rfl, hlow, hpd, hval, hppna⟩)
      · refine ⟨⟨s.length, 0, 0, s.length, s, s.length, true⟩, ?_⟩
        unfold DomainValidator.parse_string
        rw [parse_inner_localhost_no_port hlow hppm]
      · refine ⟨⟨(lh ++ ':' :: dg).length, 0, digitsVal dg, lh.length + 1,
          lh ++ ':' :: dg, (lh ++ ':' :: dg).length, true⟩, ?_⟩
        unfold DomainValidator.parse_string
        rw [parse_inner_localhost_port hlow hpd hval hppna]
  · intro hdot hex
    obtain hform := hfwd hex
    rcases hform with ⟨hlow, -⟩ | ⟨lh, dg, hs, hlow, hpd, -, -⟩
    · have hmm : ('.' : Char).toLower ∈ "localhost".data := by
        rw [← hlow]
        exact List.mem_map_of_mem _ hdot
      exact absurd hmm (by decide)
    · subst hs
      rcases List.mem_append.mp hdot with hin | hin
      · have hmm : ('.' : Char).toLower ∈ "localhost".data := by
          rw [← hlow]
          exact List.mem_map_of_mem _ hin
        exact absurd hmm (by decide)
      · rcases List.mem_cons.mp hin with hc | hc
        · exact absurd hc (by decide)
        · have hd := List.all_eq_true.mp (by
            simp only [validPortDigits, Bool.and_eq_true] at hpd
            exact hpd.2) '.' hc
          exact absurd hd (by decide)

/-- C7, witness instance: `"LocalHost:80"` accepted, `"local.host"`
rejected. -/
theorem claim_C7_witness :
    (∃ d, DomainValidator.parse_string ⟨.Allow, .Must⟩ "LocalHost:80".data
      = some (.ok d)) ∧
    ¬∃ d, DomainValidator.parse_string ⟨.Allow, .Must⟩ "local.host".data
      = some (.ok d) :=
  ⟨(claim_C7 .Allow "LocalHost:80".data).1.mpr
      (Or.inr ⟨"LocalHost".data, "80".data, by rfl, by decide, by rfl,
        by decide, by decide⟩),
    (claim_C7 .Allow "local.host".data).2 (by decide)⟩

end StereotypePolice
